import Mathlib

/-!
Verification development for the UvifyStudio QR-batch pipeline
(source: src/app/page.tsx).

The development shallowly embeds the pipeline's pure logic:

* the JPEG density patcher setDpi (bytes modelled as lists of naturals,
  DataView reads that run past the end of the buffer modelled as the
  exception branch, i.e. Option.none);
* the filename resolver used inside generateImages (split on the question
  marks, URLSearchParams-style value extraction with plus-and-percent
  decoding, sanitization to the safe alphabet, and the zero-padded
  fallback);
* the centimeter-to-pixel layout geometry (exact rational arithmetic in
  place of JS doubles; the rounding of Math.round is floor (x + 1/2));
* the batching / sharding / progress loop of generateImages, with the
  browser-side QR rendering and canvas-to-JPEG encoding abstracted into a
  per-row outcome (QR encode rejection, null blob from toBlob, or success),
  since those steps are external DOM primitives whose results are the only
  thing the packing logic observes.
-/

namespace Uvify

theorem drop_append_len {α : Type} (l₁ l₂ : List α) (n : Nat) (h : n = l₁.length) :
    (l₁ ++ l₂).drop n = l₂ := by subst h; exact List.drop_left l₁ l₂

theorem take_append_len {α : Type} (l₁ l₂ : List α) (n : Nat) (h : n = l₁.length) :
    (l₁ ++ l₂).take n = l₁ := by subst h; exact List.take_left l₁ l₂

/-! ### JPEG density patcher (setDpi, page.tsx lines 28-101)

Bytes are naturals (each below 256 in a real buffer).  The segment walk of
setDpi starts at offset 2 and only ever looks at the suffix from the
current offset, so it is modelled as a recursion on that suffix:

* an empty suffix is the normal loop exit (offset reached byteLength);
* a one-byte suffix makes view.getUint16 throw: the exception branch, none;
* reading the two-byte length field with fewer than two bytes left also
  throws;
* ArrayBuffer.slice clamps, exactly as List.take and List.drop do.
-/

def parseSegLoop : List Nat → Option (List (List Nat))
  | [] => some []
  | [_] => none
  | b0 :: b1 :: rest =>
    if b0 * 256 + b1 = 0xFFE0 then
      -- APP0: read its length, skip the whole segment, collect nothing
      if 2 ≤ rest.length then
        parseSegLoop (rest.drop (rest.getD 0 0 * 256 + rest.getD 1 0))
      else none
    else if (0xFFD0 ≤ b0 * 256 + b1 ∧ b0 * 256 + b1 ≤ 0xFFD9) ∨
        b0 * 256 + b1 = 0xFF01 then
      -- standalone markers without a length field
      parseSegLoop rest
    else if b0 * 256 + b1 = 0xFFDA then
      -- SOS: collect the remainder of the buffer and stop
      some [b0 :: b1 :: rest]
    else
      if 2 ≤ rest.length then
        if rest.getD 0 0 * 256 + rest.getD 1 0 < 2 then some []
        else
          match parseSegLoop (rest.drop (rest.getD 0 0 * 256 + rest.getD 1 0)) with
          | some tl =>
            some ((b0 :: b1 :: rest.take (rest.getD 0 0 * 256 + rest.getD 1 0)) :: tl)
          | none => none
      else none
termination_by l => l.length
decreasing_by
  all_goals simp only [List.length_drop, List.length_cons]; omega

/-- The fresh JFIF APP0 segment built by setDpi (lines 71-83):
marker FFE0, length 16, identifier JFIF NUL, version 1.01, density units 1
(dots per inch), X and Y density both set to the requested dpi (16-bit
big-endian, as DataView.setUint16 stores them). -/
def app0Bytes (dpi : Nat) : List Nat :=
  [0xFF, 0xE0, 0, 16, 0x4A, 0x46, 0x49, 0x46, 0, 1, 1, 1,
   dpi % 65536 / 256, dpi % 256, dpi % 65536 / 256, dpi % 256]

/-- The fixed pixel density of the tool (line 18). -/
def DPI : Nat := 300

/-- The body of the try block of setDpi: skip the two SOI bytes, walk the
segments, and rebuild the buffer as SOI, fresh APP0, collected segments.
none is the exception branch (an out-of-range DataView read). -/
def setDpiCore (bytes : List Nat) (dpi : Nat) : Option (List Nat) :=
  match parseSegLoop (bytes.drop 2) with
  | some segs => some ([0xFF, 0xD8] ++ app0Bytes dpi ++ segs.flatten)
  | none => none

/-- setDpi as observed by its caller: the rebuilt buffer on success, and the
original blob when the try block throws (the catch handler, line 92) or the
FileReader errors (line 97) — both paths resolve with the input blob. -/
def setDpi (bytes : List Nat) (dpi : Nat) : List Nat :=
  (setDpiCore bytes dpi).getD bytes

/-! Well-formed JPEG streams: SOI, then marker segments each carrying a
two-byte big-endian length that counts the length field plus payload, then
the SOS marker followed by the entropy-coded scan data (which setDpi copies
to the output verbatim, without parsing). -/

structure Seg where
  m2 : Nat
  payload : List Nat

def Seg.len (s : Seg) : Nat := s.payload.length + 2

def Seg.bytes (s : Seg) : List Nat :=
  0xFF :: s.m2 :: s.len / 256 :: s.len % 256 :: s.payload

/-- Side conditions making a segment a genuine length-bearing table/header
segment: the second marker byte is a byte, is none of the standalone
markers RSTn/TEM (0xD0-0xD9, 0x01), is not SOS (0xDA), and the segment
length fits in its 16-bit field. -/
def Seg.Ok (s : Seg) : Prop :=
  s.m2 < 256 ∧ s.m2 ≠ 0x01 ∧ ¬(0xD0 ≤ s.m2 ∧ s.m2 ≤ 0xD9) ∧ s.m2 ≠ 0xDA ∧
    s.payload.length + 2 ≤ 65535

instance (s : Seg) : Decidable s.Ok := by unfold Seg.Ok; infer_instance

def jpegBytes (segs : List Seg) (scan : List Nat) : List Nat :=
  0xFF :: 0xD8 :: ((segs.map Seg.bytes).flatten ++ 0xFF :: 0xDA :: scan)

theorem parseSegLoop_wf (segs : List Seg) (scan : List Nat)
    (h : ∀ s ∈ segs, s.Ok) :
    parseSegLoop ((segs.map Seg.bytes).flatten ++ 0xFF :: 0xDA :: scan) =
      some (((segs.filter (fun s => s.m2 != 0xE0)).map Seg.bytes) ++
        [0xFF :: 0xDA :: scan]) := by
  induction segs with
  | nil =>
    rw [List.map_nil, List.flatten_nil, List.nil_append, List.filter_nil,
      List.map_nil, List.nil_append, parseSegLoop]
    norm_num
  | cons s tl ih =>
    obtain ⟨hm2, hne1, hnd, hnda, hlen⟩ := h s (List.mem_cons_self s tl)
    have htl := fun x hx => h x (List.mem_cons_of_mem s hx)
    have hlenval : s.len / 256 * 256 + s.len % 256 = s.len := by
      have := Nat.div_add_mod s.len 256; omega
    have hseglen : s.len = (s.len / 256 :: s.len % 256 :: s.payload).length := by
      simp [Seg.len]
    have hb : ((s :: tl).map Seg.bytes).flatten ++ 0xFF :: 0xDA :: scan =
        0xFF :: s.m2 :: ((s.len / 256 :: s.len % 256 :: s.payload) ++
          ((tl.map Seg.bytes).flatten ++ 0xFF :: 0xDA :: scan)) := by
      simp [Seg.bytes, List.flatten_cons, List.append_assoc]
    rw [hb]
    have hgd0 : ((s.len / 256 :: s.len % 256 :: s.payload) ++
        ((tl.map Seg.bytes).flatten ++ 0xFF :: 0xDA :: scan)).getD 0 0 =
        s.len / 256 := by simp [List.getD]
    have hgd1 : ((s.len / 256 :: s.len % 256 :: s.payload) ++
        ((tl.map Seg.bytes).flatten ++ 0xFF :: 0xDA :: scan)).getD 1 0 =
        s.len % 256 := by simp [List.getD]
    have hlen2 : 2 ≤ ((s.len / 256 :: s.len % 256 :: s.payload) ++
        ((tl.map Seg.bytes).flatten ++ 0xFF :: 0xDA :: scan)).length := by
      simp
    have hdrop : ((s.len / 256 :: s.len % 256 :: s.payload) ++
        ((tl.map Seg.bytes).flatten ++ 0xFF :: 0xDA :: scan)).drop
          (s.len / 256 * 256 + s.len % 256) =
        (tl.map Seg.bytes).flatten ++ 0xFF :: 0xDA :: scan := by
      rw [hlenval]; exact drop_append_len _ _ _ hseglen
    by_cases he : s.m2 = 0xE0
    · -- APP0 segment: consumed whole and dropped from the collected list
      rw [parseSegLoop]
      have hmark : 0xFF * 256 + s.m2 = 0xFFE0 := by omega
      rw [if_pos hmark, if_pos hlen2, hgd0, hgd1, hdrop, ih htl]
      have hf : (s :: tl).filter (fun s => s.m2 != 0xE0) =
          tl.filter (fun s => s.m2 != 0xE0) := by
        simp [List.filter_cons, he]
      rw [hf]
    · -- any other length-bearing segment: copied to the output verbatim
      rw [parseSegLoop]
      have hm : ¬(0xFF * 256 + s.m2 = 0xFFE0) := by omega
      have hstand : ¬((0xFFD0 ≤ 0xFF * 256 + s.m2 ∧ 0xFF * 256 + s.m2 ≤ 0xFFD9) ∨
          0xFF * 256 + s.m2 = 0xFF01) := by omega
      have hsos : ¬(0xFF * 256 + s.m2 = 0xFFDA) := by omega
      rw [if_neg hm, if_neg hstand, if_neg hsos, if_pos hlen2, hgd0, hgd1]
      have hge : ¬(s.len / 256 * 256 + s.len % 256 < 2) := by
        rw [hlenval]; simp [Seg.len]
      rw [if_neg hge, hdrop, ih htl]
      have htake : ((s.len / 256 :: s.len % 256 :: s.payload) ++
          ((tl.map Seg.bytes).flatten ++ 0xFF :: 0xDA :: scan)).take
            (s.len / 256 * 256 + s.len % 256) =
          s.len / 256 :: s.len % 256 :: s.payload := by
        rw [hlenval]; exact take_append_len _ _ _ hseglen
      rw [htake]
      have hf : (s :: tl).filter (fun s => s.m2 != 0xE0) =
          s :: tl.filter (fun s => s.m2 != 0xE0) := by
        simp [List.filter_cons, he]
      rw [hf]
      simp [Seg.bytes]

/-- Walking a well-formed segment prefix followed by a continuation whose
walk throws makes the whole walk throw: the loop consumes each Ok segment
whole and reaches the continuation. -/
theorem parseSegLoop_append_none (segs : List Seg) (tail : List Nat)
    (h : ∀ s ∈ segs, s.Ok) (htail : parseSegLoop tail = none) :
    parseSegLoop ((segs.map Seg.bytes).flatten ++ tail) = none := by
  induction segs with
  | nil =>
    rw [List.map_nil, List.flatten_nil, List.nil_append]
    exact htail
  | cons s tl ih =>
    obtain ⟨hm2, hne1, hnd, hnda, hlen⟩ := h s (List.mem_cons_self s tl)
    have htl := fun x hx => h x (List.mem_cons_of_mem s hx)
    have hlenval : s.len / 256 * 256 + s.len % 256 = s.len := by
      have := Nat.div_add_mod s.len 256; omega
    have hseglen : s.len = (s.len / 256 :: s.len % 256 :: s.payload).length := by
      simp [Seg.len]
    have hb : ((s :: tl).map Seg.bytes).flatten ++ tail =
        0xFF :: s.m2 :: ((s.len / 256 :: s.len % 256 :: s.payload) ++
          ((tl.map Seg.bytes).flatten ++ tail)) := by
      simp [Seg.bytes, List.flatten_cons, List.append_assoc]
    rw [hb]
    have hgd0 : ((s.len / 256 :: s.len % 256 :: s.payload) ++
        ((tl.map Seg.bytes).flatten ++ tail)).getD 0 0 = s.len / 256 := by
      simp [List.getD]
    have hgd1 : ((s.len / 256 :: s.len % 256 :: s.payload) ++
        ((tl.map Seg.bytes).flatten ++ tail)).getD 1 0 = s.len % 256 := by
      simp [List.getD]
    have hlen2 : 2 ≤ ((s.len / 256 :: s.len % 256 :: s.payload) ++
        ((tl.map Seg.bytes).flatten ++ tail)).length := by
      simp only [List.length_append, List.length_cons]
      omega
    have hdrop : ((s.len / 256 :: s.len % 256 :: s.payload) ++
        ((tl.map Seg.bytes).flatten ++ tail)).drop
          (s.len / 256 * 256 + s.len % 256) =
        (tl.map Seg.bytes).flatten ++ tail := by
      rw [hlenval]; exact drop_append_len _ _ _ hseglen
    by_cases he : s.m2 = 0xE0
    · rw [parseSegLoop]
      have hmark : 0xFF * 256 + s.m2 = 0xFFE0 := by omega
      rw [if_pos hmark, if_pos hlen2, hgd0, hgd1, hdrop]
      exact ih htl
    · rw [parseSegLoop]
      have hmm : ¬(0xFF * 256 + s.m2 = 0xFFE0) := by omega
      have hstand : ¬((0xFFD0 ≤ 0xFF * 256 + s.m2 ∧
          0xFF * 256 + s.m2 ≤ 0xFFD9) ∨ 0xFF * 256 + s.m2 = 0xFF01) := by
        omega
      have hsos : ¬(0xFF * 256 + s.m2 = 0xFFDA) := by omega
      rw [if_neg hmm, if_neg hstand, if_neg hsos, if_pos hlen2, hgd0, hgd1]
      have hge : ¬(s.len / 256 * 256 + s.len % 256 < 2) := by
        rw [hlenval]; simp [Seg.len]
      rw [if_neg hge, hdrop, ih htl]

/-- C1: density-patching a well-formed JPEG (SOI, length-bearing segments,
SOS plus scan data) yields SOI, then a fresh JFIF APP0 segment declaring
horizontal and vertical density 300 with the density-units flag set to 1
(pixels per inch), then every non-APP0 segment byte-for-byte unchanged and
in order, then the SOS marker and the compressed scan data byte-for-byte
unchanged. -/
theorem setDpi_patches_wellFormed (segs : List Seg) (scan : List Nat)
    (h : ∀ s ∈ segs, s.Ok) :
    setDpi (jpegBytes segs scan) DPI =
      0xFF :: 0xD8 :: (app0Bytes DPI ++
        (((segs.filter (fun s => s.m2 != 0xE0)).map Seg.bytes).flatten ++
          0xFF :: 0xDA :: scan)) ∧
    app0Bytes DPI =
      [0xFF, 0xE0, 0, 16, 0x4A, 0x46, 0x49, 0x46, 0, 1, 1, 1, 1, 44, 1, 44] ∧
    (app0Bytes DPI).getD 11 0 = 1 ∧
    (app0Bytes DPI).getD 12 0 * 256 + (app0Bytes DPI).getD 13 0 = DPI ∧
    (app0Bytes DPI).getD 14 0 * 256 + (app0Bytes DPI).getD 15 0 = DPI := by
  refine ⟨?_, by decide, by decide, by decide, by decide⟩
  have hdrop2 : (jpegBytes segs scan).drop 2 =
      (segs.map Seg.bytes).flatten ++ 0xFF :: 0xDA :: scan := rfl
  rw [setDpi, setDpiCore, hdrop2, parseSegLoop_wf segs scan h]
  simp [List.flatten_append, List.append_assoc]

/-- Witness for C1: a concrete two-segment JPEG (a quantization-table
segment and the scan) is patched into SOI, the 300-dpi APP0, the unchanged
DQT segment, and the unchanged scan data. -/
theorem setDpi_patches_wellFormed_witness :
    setDpi (jpegBytes [⟨0xDB, [7]⟩] [9, 9, 9]) DPI =
      0xFF :: 0xD8 :: (app0Bytes DPI ++
        ((([⟨0xDB, [7]⟩] : List Seg).filter
            (fun s => s.m2 != 0xE0)).map Seg.bytes).flatten ++
          0xFF :: 0xDA :: [9, 9, 9]) := by
  have h := (setDpi_patches_wellFormed [⟨0xDB, [7]⟩] [9, 9, 9]
    (by intro s hs; simp at hs; subst hs; decide)).1
  simpa using h

/-- C2 counterexample: the truncated buffer consisting of a bare SOI marker
is malformed (it has no segments and no scan data), yet setDpi does not
return it unchanged: the parse loop exits normally without an exception and
the patcher rebuilds an 18-byte buffer SOI plus APP0. -/
theorem setDpi_truncated_not_original :
    setDpi [0xFF, 0xD8] DPI ≠ [0xFF, 0xD8] := by
  rw [setDpi, setDpiCore]
  norm_num [parseSegLoop, app0Bytes, DPI]
  decide

/-- C2 as amended: the original unpatched buffer is returned exactly on
the exception paths of the segment walk, not on every malformed input.
Whenever the walk hits an out-of-range DataView read the original buffer
comes back unchanged; in particular, for every well-formed segment stream,
truncating it at a dangling marker byte, right after a non-standalone
marker (its length field missing), or one byte into the length field makes
the marker or length read throw and returns the whole buffer byte-for-byte
unchanged.  Malformed buffers whose walk instead completes without a read
past the end — such as a bare SOI — are rebuilt, not returned. -/
theorem setDpi_exception_returns_original (dpi : Nat) (segs : List Seg)
    (m2 x : Nat) (hok : ∀ s ∈ segs, s.Ok) (hm : m2 < 256) (h1 : m2 ≠ 0x01)
    (hd : ¬(0xD0 ≤ m2 ∧ m2 ≤ 0xD9)) (hda : m2 ≠ 0xDA) :
    (∀ bytes : List Nat, parseSegLoop (bytes.drop 2) = none →
      setDpi bytes dpi = bytes) ∧
    setDpi (0xFF :: 0xD8 :: ((segs.map Seg.bytes).flatten ++ [0xFF])) dpi
      = 0xFF :: 0xD8 :: ((segs.map Seg.bytes).flatten ++ [0xFF]) ∧
    setDpi (0xFF :: 0xD8 :: ((segs.map Seg.bytes).flatten ++ [0xFF, m2])) dpi
      = 0xFF :: 0xD8 :: ((segs.map Seg.bytes).flatten ++ [0xFF, m2]) ∧
    setDpi (0xFF :: 0xD8 ::
        ((segs.map Seg.bytes).flatten ++ [0xFF, m2, x])) dpi
      = 0xFF :: 0xD8 :: ((segs.map Seg.bytes).flatten ++ [0xFF, m2, x]) := by
  have hgen : ∀ bytes : List Nat, parseSegLoop (bytes.drop 2) = none →
      setDpi bytes dpi = bytes := by
    intro bytes h
    rw [setDpi, setDpiCore, h]
    rfl
  have hset : ∀ tail : List Nat, parseSegLoop tail = none →
      setDpi (0xFF :: 0xD8 :: ((segs.map Seg.bytes).flatten ++ tail)) dpi
        = 0xFF :: 0xD8 :: ((segs.map Seg.bytes).flatten ++ tail) := by
    intro tail ht
    apply hgen
    rw [show (0xFF :: 0xD8 ::
        ((segs.map Seg.bytes).flatten ++ tail)).drop 2
        = (segs.map Seg.bytes).flatten ++ tail from rfl]
    exact parseSegLoop_append_none segs tail hok ht
  have hempty : ¬(2 ≤ ([] : List Nat).length) := by simp
  have hone : ¬(2 ≤ ([x] : List Nat).length) := by simp
  have hnone2 : parseSegLoop [0xFF, m2] = none := by
    rw [parseSegLoop]
    by_cases he : 0xFF * 256 + m2 = 0xFFE0
    · rw [if_pos he, if_neg hempty]
    · rw [if_neg he,
        if_neg (show ¬((0xFFD0 ≤ 0xFF * 256 + m2 ∧
          0xFF * 256 + m2 ≤ 0xFFD9) ∨ 0xFF * 256 + m2 = 0xFF01) from
            by omega),
        if_neg (show ¬(0xFF * 256 + m2 = 0xFFDA) from by omega),
        if_neg hempty]
  have hnone3 : parseSegLoop [0xFF, m2, x] = none := by
    rw [parseSegLoop]
    by_cases he : 0xFF * 256 + m2 = 0xFFE0
    · rw [if_pos he, if_neg hone]
    · rw [if_neg he,
        if_neg (show ¬((0xFFD0 ≤ 0xFF * 256 + m2 ∧
          0xFF * 256 + m2 ≤ 0xFFD9) ∨ 0xFF * 256 + m2 = 0xFF01) from
            by omega),
        if_neg (show ¬(0xFF * 256 + m2 = 0xFFDA) from by omega),
        if_neg hone]
  exact ⟨hgen, hset [0xFF] (by norm_num [parseSegLoop]),
    hset [0xFF, m2] hnone2, hset [0xFF, m2, x] hnone3⟩

/-- Witness for the amended C2: the three-byte truncated buffer FF D8 FF
(a dangling marker byte after SOI) and a quantization-table segment whose
following Huffman-table marker lost its length field both make the walk
throw, and in both cases the original bytes come back unchanged. -/
theorem setDpi_exception_returns_original_witness :
    setDpi [0xFF, 0xD8, 0xFF] DPI = [0xFF, 0xD8, 0xFF] ∧
    setDpi (0xFF :: 0xD8 ::
        ((([⟨0xDB, [7]⟩] : List Seg).map Seg.bytes).flatten
          ++ [0xFF, 0xC4])) DPI
      = 0xFF :: 0xD8 ::
        ((([⟨0xDB, [7]⟩] : List Seg).map Seg.bytes).flatten
          ++ [0xFF, 0xC4]) := by
  have h := setDpi_exception_returns_original DPI [⟨0xDB, [7]⟩] 0xC4 0
    (by intro s hs; simp at hs; subst hs; decide)
    (by decide) (by decide) (by decide) (by decide)
  refine ⟨h.1 [0xFF, 0xD8, 0xFF] ?_, h.2.2.1⟩
  show parseSegLoop [0xFF] = none
  norm_num [parseSegLoop]

/-- C10: setDpi is total at its interface.  For every input byte buffer the
result is always defined, and it is either the rebuilt buffer produced from
a completed segment walk, or — on the exception path — exactly the original
input buffer.  No input makes the promise reject. -/
theorem setDpi_total (bytes : List Nat) (dpi : Nat) :
    (∃ segs, parseSegLoop (bytes.drop 2) = some segs ∧
      setDpi bytes dpi = [0xFF, 0xD8] ++ app0Bytes dpi ++ segs.flatten) ∨
    (parseSegLoop (bytes.drop 2) = none ∧ setDpi bytes dpi = bytes) := by
  rcases hp : parseSegLoop (bytes.drop 2) with _ | segs
  · exact Or.inr ⟨rfl, by rw [setDpi, setDpiCore, hp]; rfl⟩
  · exact Or.inl ⟨segs, rfl, by rw [setDpi, setDpiCore, hp]; rfl⟩

/-! ### Filename resolver (generateImages, page.tsx lines 331-342)

The code takes the portion of the link between the first and second
question mark (link.split on the question mark, element 1), feeds it to
URLSearchParams, takes the last value in order of appearance, and
sanitizes it; if the result is empty (no query portion, no parameters, or
a value that sanitizes to nothing) it falls back to qr_image_ followed by
the 1-based row index left-padded with zeros to width 4.  Strings are
modelled as lists of characters; URLSearchParams is modelled by its
specified parse: split on ampersands, skip empty pieces, value is the part
after the first equals sign, plus decodes to space, percent escapes decode
bytewise. -/

def splitSep (sep : Char) : List Char → List (List Char)
  | [] => [[]]
  | c :: rest =>
    match splitSep sep rest with
    | [] => [[]]
    | h :: t => if c = sep then [] :: h :: t else (c :: h) :: t

def isHexDigit (c : Char) : Bool :=
  decide ((48 ≤ c.toNat ∧ c.toNat ≤ 57) ∨ (97 ≤ c.toNat ∧ c.toNat ≤ 102) ∨
    (65 ≤ c.toNat ∧ c.toNat ≤ 70))

def hexVal (c : Char) : Nat :=
  if c.toNat ≤ 57 then c.toNat - 48
  else if 97 ≤ c.toNat then c.toNat - 87
  else c.toNat - 55

/-- Recursion on fuel (any fuel at least the list length gives the decode;
a kept percent sign resumes scanning at the very next character, which is
not a structural subterm). -/
def percentDecodeGo : Nat → List Char → List Char
  | _, [] => []
  | 0, l => l
  | fuel + 1, c :: rest =>
    if c = '%' then
      match rest with
      | a :: b :: rest2 =>
        if isHexDigit a && isHexDigit b then
          Char.ofNat (hexVal a * 16 + hexVal b) :: percentDecodeGo fuel rest2
        else '%' :: percentDecodeGo fuel rest
      | _ => '%' :: percentDecodeGo fuel rest
    else (if c = '+' then ' ' else c) :: percentDecodeGo fuel rest

def percentDecode (l : List Char) : List Char := percentDecodeGo l.length l

/-- The value of one name-value piece of a query string: everything after
the first equals sign, empty when there is none. -/
def seqValue (seq : List Char) : List Char :=
  match seq.dropWhile (fun c => c != '=') with
  | [] => []
  | _ :: v => v

/-- The decoded parameter values of a query string, in order of
appearance, as URLSearchParams yields them. -/
def queryValues (q : List Char) : List (List Char) :=
  ((splitSep '&' q).filter (fun s => !s.isEmpty)).map
    (fun seq => percentDecode (seqValue seq))

/-- The safe filename alphabet of the sanitizer regex: ASCII letters,
digits, underscore, hyphen. -/
def isSafeChar (c : Char) : Bool :=
  decide ((65 ≤ c.toNat ∧ c.toNat ≤ 90) ∨ (97 ≤ c.toNat ∧ c.toNat ≤ 122) ∨
    (48 ≤ c.toNat ∧ c.toNat ≤ 57) ∨ c = '_' ∨ c = '-')

def sanitize (s : List Char) : List Char :=
  s.map (fun c => if isSafeChar c then c else '_')

/-- String(fullIndex + 1).padStart(4, "0"). -/
def indexName (fullIndex : Nat) : List Char :=
  List.replicate (4 - (Nat.repr (fullIndex + 1)).toList.length) '0' ++
    (Nat.repr (fullIndex + 1)).toList

/-- link.split on the question mark, element 1 — undefined (fewer than two
pieces) and the empty string are both falsy, so both are the empty list
here. -/
def queryOf (link : List Char) : List Char := (splitSep '?' link).getD 1 []

/-- The filename before the fallback check: empty when there is no query
portion; otherwise the sanitized last parameter value, with the optional
chaining and the or-empty-string of the source collapsing a missing last
value to the empty name. -/
def rawName (link : List Char) : List Char :=
  if (queryOf link).isEmpty then []
  else (queryValues (queryOf link)).getLast?.elim [] sanitize

def resolveFileName (link : List Char) (fullIndex : Nat) : List Char :=
  if (rawName link).isEmpty then "qr_image_".toList ++ indexName fullIndex
  else rawName link

theorem sanitize_safe (v : List Char) : ∀ c ∈ sanitize v, isSafeChar c = true := by
  intro c hc
  rcases List.mem_map.mp hc with ⟨x, _, hx⟩
  by_cases hs : isSafeChar x = true
  · rw [← hx, if_pos hs]; exact hs
  · rw [← hx, if_neg hs]; decide

theorem rawName_of_last (link : List Char) (v : List Char)
    (hv : (queryValues (queryOf link)).getLast? = some v) :
    rawName link = sanitize v := by
  have hq : ¬(queryOf link).isEmpty = true := by
    intro hisEmpty
    rw [List.isEmpty_iff.mp hisEmpty] at hv
    simp [queryValues, splitSep] at hv
  rw [rawName, if_neg hq, hv]
  rfl

/-- C7: the filename resolver is a pure function of the link and the
0-based row index (it is a Lean function of exactly those arguments, hence
deterministic and stable under re-runs).  If the link has a query portion
it yields the sanitized value of the last query parameter by position,
every character of which lies in the safe alphabet; sanitization is
idempotent; if there is no query portion, or no parameter value survives
sanitization, it falls back to qr_image_ plus the 1-based index zero-padded
to four digits — in particular qr_image_0007 for the seventh row. -/
theorem resolveFileName_spec :
    (∀ link idx, queryOf link = [] →
      resolveFileName link idx = "qr_image_".toList ++ indexName idx) ∧
    (∀ link idx v, (queryValues (queryOf link)).getLast? = some v →
      sanitize v ≠ [] → resolveFileName link idx = sanitize v) ∧
    (∀ link idx v, (queryValues (queryOf link)).getLast? = some v →
      sanitize v = [] →
      resolveFileName link idx = "qr_image_".toList ++ indexName idx) ∧
    (∀ link idx, (queryValues (queryOf link)).getLast? = none →
      resolveFileName link idx = "qr_image_".toList ++ indexName idx) ∧
    (∀ v, ∀ c ∈ sanitize v, isSafeChar c = true) ∧
    (∀ v, sanitize (sanitize v) = sanitize v) ∧
    indexName 6 = "0007".toList ∧
    "qr_image_".toList ++ indexName 6 = "qr_image_0007".toList := by
  refine ⟨?_, ?_, ?_, ?_, sanitize_safe, ?_, by decide, by decide⟩
  · intro link idx hq
    have hraw : rawName link = [] := by
      rw [rawName, if_pos (List.isEmpty_iff.mpr hq)]
    rw [resolveFileName, if_pos (List.isEmpty_iff.mpr hraw)]
  · intro link idx v hv hsan
    have hraw := rawName_of_last link v hv
    have hne : ¬(rawName link).isEmpty = true := by
      rw [hraw]
      exact fun hc => hsan (List.isEmpty_iff.mp hc)
    rw [resolveFileName, if_neg hne, hraw]
  · intro link idx v hv hsan
    have hraw := rawName_of_last link v hv
    rw [resolveFileName, if_pos (List.isEmpty_iff.mpr (hraw.trans hsan))]
  · intro link idx hv
    have hraw : rawName link = [] := by
      by_cases hq : (queryOf link).isEmpty = true
      · rw [rawName, if_pos hq]
      · rw [rawName, if_neg hq, hv]; rfl
    rw [resolveFileName, if_pos (List.isEmpty_iff.mpr hraw)]
  · intro v
    rw [sanitize, sanitize, List.map_map]
    apply List.map_congr_left
    intro x _
    by_cases hs : isSafeChar x = true
    · simp only [Function.comp_apply, if_pos hs]
    · simp only [Function.comp_apply, if_neg hs]
      decide

/-- Witness for C7: the link a?id=4.2 has the query portion id=4.2, whose
last (only) parameter value 4.2 sanitizes to 4_2; and a link without any
query portion at row seven resolves to qr_image_0007. -/
theorem resolveFileName_spec_witness :
    resolveFileName "a?id=4.2".toList 0 = "4_2".toList ∧
    resolveFileName "https://foo".toList 6 = "qr_image_0007".toList := by
  constructor
  · have h := resolveFileName_spec.2.1 "a?id=4.2".toList 0 "4.2".toList
      (by decide) (by decide)
    rw [h]; decide
  · have h := resolveFileName_spec.1 "https://foo".toList 6 (by decide)
    rw [h]
    exact resolveFileName_spec.2.2.2.2.2.2.2

/-! ### Layout geometry (page.tsx lines 18-19 and 243-305)

Exact rational arithmetic stands in for JS doubles.  Math.round on
non-negative reals is floor (x + 1/2), matching its round-half-up
behavior. -/

def jsRound (x : ℚ) : ℤ := Int.floor (x + 1/2)

/-- cmToPx (line 19): Math.round((cm / 2.54) * DPI). -/
def cmToPx (cm : ℚ) : ℤ := jsRound (cm / 2.54 * 300)

structure QrConfig where
  qrSizeCm : ℚ
  marginTopCm : ℚ
  marginRightCm : ℚ

structure BgDimensions where
  widthCm : ℚ
  heightCm : ℚ

structure Layout where
  outputWidthPx : ℚ
  outputHeightPx : ℚ
  qrSizePx : ℚ
  drawWidth : ℚ
  drawHeight : ℚ
  offsetX : ℚ
  offsetY : ℚ
  pasteX : ℚ
  pasteY : ℚ

/-- The geometry computed by generateImages: canvas size and QR size from
cmToPx, aspect-fit placement of the background bitmap (bgW x bgH pixels)
into the canvas (lines 251-265), and the QR paste rectangle measured from
the content box (lines 300-301): its right edge sits marginRight pixels
left of the content box's right edge, its top sits marginTop pixels below
the content box's top. -/
def computeLayout (dim : BgDimensions) (cfg : QrConfig) (bgW bgH : ℚ) : Layout :=
  let outputWidthPx : ℚ := (cmToPx dim.widthCm : ℚ)
  let outputHeightPx : ℚ := (cmToPx dim.heightCm : ℚ)
  let qrSizePx : ℚ := (cmToPx cfg.qrSizeCm : ℚ)
  let canvasAspectRatio := outputWidthPx / outputHeightPx
  let imageAspectRatio := bgW / bgH
  if canvasAspectRatio < imageAspectRatio then
    let drawWidth := outputWidthPx
    let drawHeight := drawWidth / imageAspectRatio
    let offsetX : ℚ := 0
    let offsetY := (outputHeightPx - drawHeight) / 2
    ⟨outputWidthPx, outputHeightPx, qrSizePx, drawWidth, drawHeight, offsetX, offsetY,
      offsetX + drawWidth - qrSizePx - (cmToPx cfg.marginRightCm : ℚ),
      offsetY + (cmToPx cfg.marginTopCm : ℚ)⟩
  else
    let drawHeight := outputHeightPx
    let drawWidth := drawHeight * imageAspectRatio
    let offsetX := (outputWidthPx - drawWidth) / 2
    let offsetY : ℚ := 0
    ⟨outputWidthPx, outputHeightPx, qrSizePx, drawWidth, drawHeight, offsetX, offsetY,
      offsetX + drawWidth - qrSizePx - (cmToPx cfg.marginRightCm : ℚ),
      offsetY + (cmToPx cfg.marginTopCm : ℚ)⟩

theorem computeLayout_paste (dim : BgDimensions) (cfg : QrConfig) (bgW bgH : ℚ) :
    (computeLayout dim cfg bgW bgH).pasteX =
      (computeLayout dim cfg bgW bgH).offsetX +
        (computeLayout dim cfg bgW bgH).drawWidth -
        (computeLayout dim cfg bgW bgH).qrSizePx -
        (cmToPx cfg.marginRightCm : ℚ) ∧
    (computeLayout dim cfg bgW bgH).pasteY =
      (computeLayout dim cfg bgW bgH).offsetY + (cmToPx cfg.marginTopCm : ℚ) ∧
    (computeLayout dim cfg bgW bgH).qrSizePx = (cmToPx cfg.qrSizeCm : ℚ) := by
  simp only [computeLayout]
  split <;> exact ⟨rfl, rfl, rfl⟩

theorem cmToPx_nonneg (cm : ℚ) (h : 0 ≤ cm) : (0 : ℤ) ≤ cmToPx cm := by
  rw [cmToPx, jsRound, Int.le_floor]
  have h1 : (0:ℚ) ≤ cm / 2.54 * 300 := by positivity
  push_cast
  linarith

/-- The concrete layout for the narrow 100 x 900 background used by the C5
counterexample (pillarboxed: content box is only 1063/9 pixels wide). -/
theorem narrow_eval :
    computeLayout ⟨16, 9⟩ ⟨3, 2.4, 0.9⟩ 100 900 =
      ⟨1890, 1063, 354, 1063/9, 1063, 15947/18, 0, 9793/18, 283⟩ := by
  simp only [computeLayout]
  split
  · rename_i h
    norm_num [cmToPx, jsRound] at h
  · simp only [Layout.mk.injEq]
    norm_num [cmToPx, jsRound]

/-- The concrete layout for the 16:9-matching 1600 x 900 background of the
scenario in C6 (content box 17008/9 wide, offset 1/9). -/
theorem scenario_eval :
    computeLayout ⟨16, 9⟩ ⟨3, 2.4, 0.9⟩ 1600 900 =
      ⟨1890, 1063, 354, 17008/9, 1063, 1/9, 0, 12869/9, 283⟩ := by
  simp only [computeLayout]
  split
  · rename_i h
    norm_num [cmToPx, jsRound] at h
  · simp only [Layout.mk.injEq]
    norm_num [cmToPx, jsRound]

/-- C5 counterexample: with the valid layout 16cm x 9cm, QR 3cm, top margin
2.4cm, right margin 0.9cm (margins and size non-negative, size plus margins
within the centimeter bounds) and a narrow 100 x 900 pixel background
bitmap, the computed QR rectangle starts 341.9 pixels left of the scaled
background's content box: the claim fails because the margins are
centimeter offsets of the full canvas while the pillarboxed content box can
be arbitrarily narrow. -/
theorem qr_rect_escapes_content_box :
    ((0:ℚ) ≤ 0.9 ∧ (0:ℚ) ≤ 2.4 ∧ (0:ℚ) ≤ 3 ∧
      (3:ℚ) + 0.9 ≤ 16 ∧ (3:ℚ) + 2.4 ≤ 9) ∧
    (computeLayout ⟨16, 9⟩ ⟨3, 2.4, 0.9⟩ 100 900).pasteX <
      (computeLayout ⟨16, 9⟩ ⟨3, 2.4, 0.9⟩ 100 900).offsetX := by
  constructor
  · norm_num
  · rw [narrow_eval]
    norm_num

/-- C5 as amended: under the claim's validity premise (margins and QR size
non-negative, size plus margins within the centimeter bounds) and the
additional premise the counterexample forces — the scaled content box must
itself be large enough in pixels for the QR plus its margin in each axis —
the QR pixel rectangle lies entirely within the content box of the scaled,
centered background. -/
theorem qr_rect_in_content_box (dim : BgDimensions) (cfg : QrConfig) (bgW bgH : ℚ)
    (hmr : 0 ≤ cfg.marginRightCm) (hmt : 0 ≤ cfg.marginTopCm)
    (hq : 0 ≤ cfg.qrSizeCm)
    (hboundW : cfg.qrSizeCm + cfg.marginRightCm ≤ dim.widthCm)
    (hboundH : cfg.qrSizeCm + cfg.marginTopCm ≤ dim.heightCm)
    (hfitW : (computeLayout dim cfg bgW bgH).qrSizePx +
      (cmToPx cfg.marginRightCm : ℚ) ≤ (computeLayout dim cfg bgW bgH).drawWidth)
    (hfitH : (computeLayout dim cfg bgW bgH).qrSizePx +
      (cmToPx cfg.marginTopCm : ℚ) ≤ (computeLayout dim cfg bgW bgH).drawHeight) :
    (computeLayout dim cfg bgW bgH).offsetX ≤ (computeLayout dim cfg bgW bgH).pasteX ∧
    (computeLayout dim cfg bgW bgH).pasteX + (computeLayout dim cfg bgW bgH).qrSizePx ≤
      (computeLayout dim cfg bgW bgH).offsetX + (computeLayout dim cfg bgW bgH).drawWidth ∧
    (computeLayout dim cfg bgW bgH).offsetY ≤ (computeLayout dim cfg bgW bgH).pasteY ∧
    (computeLayout dim cfg bgW bgH).pasteY + (computeLayout dim cfg bgW bgH).qrSizePx ≤
      (computeLayout dim cfg bgW bgH).offsetY + (computeLayout dim cfg bgW bgH).drawHeight := by
  obtain ⟨hx, hy, hs⟩ := computeLayout_paste dim cfg bgW bgH
  have hmrpx : (0:ℚ) ≤ (cmToPx cfg.marginRightCm : ℚ) := by
    exact_mod_cast cmToPx_nonneg cfg.marginRightCm hmr
  have hmtpx : (0:ℚ) ≤ (cmToPx cfg.marginTopCm : ℚ) := by
    exact_mod_cast cmToPx_nonneg cfg.marginTopCm hmt
  refine ⟨?_, ?_, ?_, ?_⟩ <;> [skip; skip; skip; skip] <;>
    first
    | (rw [hx]; linarith)
    | (rw [hy]; linarith)

/-- Witness for the amended C5: with the matching-aspect 1600 x 900
background everything fits and the rectangle stays inside the content
box. -/
theorem qr_rect_in_content_box_witness :
    (computeLayout ⟨16, 9⟩ ⟨3, 2.4, 0.9⟩ 1600 900).offsetX ≤
      (computeLayout ⟨16, 9⟩ ⟨3, 2.4, 0.9⟩ 1600 900).pasteX := by
  have h := qr_rect_in_content_box ⟨16, 9⟩ ⟨3, 2.4, 0.9⟩ 1600 900
    (by norm_num) (by norm_num) (by norm_num) (by norm_num) (by norm_num)
    (by rw [scenario_eval]; norm_num [cmToPx, jsRound])
    (by rw [scenario_eval]; norm_num [cmToPx, jsRound])
  exact h.1

/-- C6 counterexample: for the 1600 x 900 background with the 16cm x 9cm
layout (QR 3cm, top 2.4cm, right 0.9cm), the code's horizontal paste
coordinate is offsetX + drawWidth - qrSizePx - marginRightPx = 12869/9,
about 1429.89 — not an integer at all, and not the claimed
round(300 * (16 - 0.9 - 3) / 2.54) = 1429. -/
theorem scenario_pasteX_not_claimed :
    (computeLayout ⟨16, 9⟩ ⟨3, 2.4, 0.9⟩ 1600 900).pasteX = 12869 / 9 ∧
    jsRound (300 * (16 - 0.9 - 3) / 2.54) = 1429 ∧
    (computeLayout ⟨16, 9⟩ ⟨3, 2.4, 0.9⟩ 1600 900).pasteX ≠ ((1429 : ℤ) : ℚ) ∧
    ¬∃ z : ℤ, (computeLayout ⟨16, 9⟩ ⟨3, 2.4, 0.9⟩ 1600 900).pasteX = (z : ℚ) := by
  refine ⟨by rw [scenario_eval], by rw [jsRound]; norm_num,
    by rw [scenario_eval]; norm_num, ?_⟩
  rw [scenario_eval]
  rintro ⟨z, hz⟩
  have h9 : (12869 : ℚ) = 9 * (z : ℚ) := by
    field_simp at hz
    linarith
  have h9z : (12869 : ℤ) = 9 * z := by exact_mod_cast h9
  omega

/-- C6 as amended: the canvas dimensions, the QR pixel size and the
vertical paste coordinate are the claimed round-half-up values (1890 x
1063 canvas, size 354 = round(300*3/2.54), top 283 = round(300*2.4/2.54)),
but the horizontal paste coordinate is the exact content-box expression
offsetX + drawWidth - qrSizePx - marginRightPx = 12869/9 (about 1429.89,
fractional), not the rounded centimeter arithmetic round(300*(16-0.9-3)/2.54)
= 1429 stated by the claim. -/
theorem scenario_layout_values :
    (computeLayout ⟨16, 9⟩ ⟨3, 2.4, 0.9⟩ 1600 900).outputWidthPx = 1890 ∧
    (computeLayout ⟨16, 9⟩ ⟨3, 2.4, 0.9⟩ 1600 900).outputHeightPx = 1063 ∧
    (computeLayout ⟨16, 9⟩ ⟨3, 2.4, 0.9⟩ 1600 900).qrSizePx =
      (jsRound (300 * 3 / 2.54) : ℚ) ∧
    (computeLayout ⟨16, 9⟩ ⟨3, 2.4, 0.9⟩ 1600 900).qrSizePx = 354 ∧
    (computeLayout ⟨16, 9⟩ ⟨3, 2.4, 0.9⟩ 1600 900).pasteY =
      (jsRound (300 * 2.4 / 2.54) : ℚ) ∧
    (computeLayout ⟨16, 9⟩ ⟨3, 2.4, 0.9⟩ 1600 900).pasteY = 283 ∧
    (computeLayout ⟨16, 9⟩ ⟨3, 2.4, 0.9⟩ 1600 900).pasteX =
      (computeLayout ⟨16, 9⟩ ⟨3, 2.4, 0.9⟩ 1600 900).offsetX +
        (computeLayout ⟨16, 9⟩ ⟨3, 2.4, 0.9⟩ 1600 900).drawWidth -
        (computeLayout ⟨16, 9⟩ ⟨3, 2.4, 0.9⟩ 1600 900).qrSizePx -
        (cmToPx (0.9 : ℚ) : ℚ) ∧
    (computeLayout ⟨16, 9⟩ ⟨3, 2.4, 0.9⟩ 1600 900).pasteX = 12869 / 9 := by
  refine ⟨by rw [scenario_eval], by rw [scenario_eval], ?_, by rw [scenario_eval],
    ?_, by rw [scenario_eval], ?_, by rw [scenario_eval]⟩
  · rw [scenario_eval]
    norm_num [jsRound]
  · rw [scenario_eval]
    norm_num [jsRound]
  · exact (computeLayout_paste ⟨16, 9⟩ ⟨3, 2.4, 0.9⟩ 1600 900).1

/-! ### generateImages: batching, sharding, progress (page.tsx lines 230-391)

The pipeline state is the pair of JS arrays zipFiles / zipImageCounts, the
flushed archives, and the published progress updates.  Per-row work that
happens outside the packing logic (QR rendering via QRCode.toDataURL,
canvas drawing, canvas.toBlob, setDpi) is abstracted into a RowOutcome:
qrFail is a rejected QR encode promise (which rejects the batch's
Promise.all and so aborts the whole run), blobNull is canvas.toBlob
resolving null (the row is silently dropped, line 321), ok is a produced
blob.  An artifact blob is identified by its row index.  The progress
state records the loop counter i of each setProgress call (line 348); the
published rational value ((i + 4) / totalRows) * 100 is recovered by
progressValues. -/

inductive RowOutcome
  | qrFail
  | blobNull
  | ok
deriving DecidableEq

abbrev Row := List Char × RowOutcome

abbrev Zip := List (List Char × Nat)

def IMAGES_PER_ZIP : Nat := 2000

def BATCH_SIZE : Nat := 4

/-- The archive entry name: resolved filename plus the .jpg extension
(line 344). -/
def entryName (link : List Char) (idx : Nat) : List Char :=
  resolveFileName link idx ++ ".jpg".toList

/-- JSZip file(name, blob): replace in place when the name already exists,
append otherwise. -/
def zipFile (z : Zip) (name : List Char) (v : Nat) : Zip :=
  if z.any (fun e => e.1 = name) then
    z.map (fun e => if e.1 = name then (name, v) else e)
  else z ++ [(name, v)]

structure GenState where
  zipFiles : List (Option Zip)
  zipImageCounts : List Nat
  emitted : List (Nat × Zip)
  progressIdx : List Nat
deriving DecidableEq

/-- zipFiles[z]: a JS read of a null or out-of-range slot is falsy. -/
def slotGet (st : GenState) (z : Nat) : Option Zip := st.zipFiles.getD z none

/-- zipImageCounts[z], defaulting to 0. -/
def countGet (st : GenState) (z : Nat) : Nat := st.zipImageCounts.getD z 0

/-- JS array assignment arr[i] = v: extends the array to length i+1 when
needed (holes read back as the default). -/
def listSetPad {α : Type} (l : List α) (i : Nat) (dflt v : α) : List α :=
  (l ++ List.replicate (i + 1 - l.length) dflt).set i v

/-- Lines 320-346: place one produced artifact into its shard, creating
the shard lazily, and bump its count. -/
def insertArtifact (st : GenState) (fullIndex : Nat) (link : List Char) : GenState :=
  let zipIndex := fullIndex / IMAGES_PER_ZIP
  let st1 :=
    if (slotGet st zipIndex).isNone then
      { st with zipFiles := listSetPad st.zipFiles zipIndex none (some []),
                zipImageCounts := listSetPad st.zipImageCounts zipIndex 0 0 }
    else st
  { st1 with
      zipFiles := listSetPad st1.zipFiles zipIndex none
        (some (zipFile ((slotGet st1 zipIndex).getD [])
          (entryName link fullIndex) fullIndex)),
      zipImageCounts :=
        listSetPad st1.zipImageCounts zipIndex 0 (countGet st1 zipIndex + 1) }

/-- The forEach over a batch's settled blobs, in batch order — each ok row
is inserted, null blobs are skipped. -/
def processBatch (st : GenState) (batch : List (Nat × Row)) : GenState :=
  batch.foldl
    (fun s r => if r.2.2 = RowOutcome.ok then insertArtifact s r.1 r.2.1 else s) st

/-- One step of the mid-run flush scan (lines 351-367): a shard whose
count reached capacity is emitted, its slot nulled and its count reset. -/
def flushStep (st : GenState) (z : Nat) : GenState :=
  match slotGet st z with
  | some zc =>
    if countGet st z = IMAGES_PER_ZIP then
      { st with emitted := st.emitted ++ [(z, zc)],
                zipFiles := listSetPad st.zipFiles z none none,
                zipImageCounts := listSetPad st.zipImageCounts z 0 0 }
    else st
  | none => st

def flushFull (st : GenState) : GenState :=
  (List.range st.zipFiles.length).foldl flushStep st

/-- One step of the final flush (lines 371-384): every still-open shard is
emitted (the loop does not clear the slot; it only downloads). -/
def finalFlushStep (st : GenState) (z : Nat) : GenState :=
  match slotGet st z with
  | some zc => { st with emitted := st.emitted ++ [(z, zc)] }
  | none => st

def finalFlush (st : GenState) : GenState :=
  (List.range st.zipFiles.length).foldl finalFlushStep st

/-- links.slice(i, i + 4) batches, in order. -/
def chunks4 {α : Type} : List α → List (List α)
  | [] => []
  | a :: b :: c :: d :: rest => [a, b, c, d] :: chunks4 rest
  | l => [l]

/-- The batch loop (lines 273-368): a batch whose Promise.all rejects (a
QR encode failure) throws out of generateImages; otherwise the settled
blobs are zipped, progress is published, and full shards are flushed. -/
def genLoop : List (List (Nat × Row)) → Nat → GenState → Except Unit GenState
  | [], _, st => Except.ok st
  | batch :: rest, i, st =>
    if batch.any (fun r => r.2.2 = RowOutcome.qrFail) then Except.error ()
    else
      let st1 := processBatch st batch
      let st2 := { st1 with progressIdx := st1.progressIdx ++ [i] }
      genLoop rest (i + BATCH_SIZE) (flushFull st2)

inductive GenResult
  | fatalInput
  | aborted
  | done (emitted : List (Nat × Zip)) (progressIdx : List Nat)
deriving DecidableEq

/-- generateImages: the fatal-input guard (lines 231-238), then the batch
loop over the enumerated rows, then the final flush of open shards. -/
def generateImages (bgPresent : Bool) (rows : List Row) : GenResult :=
  if bgPresent = false ∨ rows = [] then GenResult.fatalInput
  else
    match genLoop (chunks4 rows.enum) 0 ⟨[], [], [], []⟩ with
    | Except.error _ => GenResult.aborted
    | Except.ok st =>
      GenResult.done (finalFlush st).emitted (finalFlush st).progressIdx

/-- The sequence of published progress percentages: setProgress(0) at the
start, then ((i + BATCH_SIZE) / totalRows) * 100 after each batch. -/
def progressValues (n : Nat) (idxs : List Nat) : List ℚ :=
  0 :: idxs.map (fun i : ℕ => ((i : ℚ) + BATCH_SIZE) / n * 100)

def emittedOf : GenResult → List (Nat × Zip)
  | GenResult.done em _ => em
  | _ => []

def progressIdxOf : GenResult → List Nat
  | GenResult.done _ p => p
  | _ => []

/-! Derived descriptions of the run, used to state the characterization:
the artifact rows of each shard window, the archive a window produces, and
the window counts. -/

def windowArtsUpto (rows : List Row) (i z : Nat) : List (Nat × Row) :=
  (rows.enum.take i).filter
    (fun r => r.2.2 = RowOutcome.ok ∧ r.1 / IMAGES_PER_ZIP = z)

def windowArts (rows : List Row) (z : Nat) : List (Nat × Row) :=
  windowArtsUpto rows rows.length z

def zipOfArts (l : List (Nat × Row)) : Zip :=
  l.foldl (fun acc r => zipFile acc (entryName r.2.1 r.1) r.1) []

def windowZipUpto (rows : List Row) (i z : Nat) : Zip :=
  zipOfArts (windowArtsUpto rows i z)

def windowZip (rows : List Row) (z : Nat) : Zip :=
  zipOfArts (windowArts rows z)

def wcountUpto (rows : List Row) (i z : Nat) : Nat :=
  (windowArtsUpto rows i z).length

def wcount (rows : List Row) (z : Nat) : Nat :=
  (windowArts rows z).length

def numWindows (n : Nat) : Nat := (n + (IMAGES_PER_ZIP - 1)) / IMAGES_PER_ZIP

/-- The emitted archives of a completed run: the full shards (flushed the
moment their count hit capacity, in ascending order since windows complete
in index order), then the final flush of the still-open shards in
ascending slot order. -/
def genSpecEmitted (rows : List Row) : List (Nat × Zip) :=
  ((List.range (numWindows rows.length)).filter
      (fun z => wcount rows z = IMAGES_PER_ZIP)).map
    (fun z => (z, windowZip rows z)) ++
  ((List.range (numWindows rows.length)).filter
      (fun z => 0 < wcount rows z ∧ wcount rows z < IMAGES_PER_ZIP)).map
    (fun z => (z, windowZip rows z))

/-- The recorded progress loop counters of a completed run: one batch per
ceil(n / 4), the k-th publishing counter 4k. -/
def genSpecIdx (n : Nat) : List Nat :=
  (List.range ((n + BATCH_SIZE - 1) / BATCH_SIZE)).map (fun k => BATCH_SIZE * k)

/-! Basic lemmas about padded array assignment. -/

theorem listSetPad_length {α : Type} (l : List α) (i : Nat) (d v : α) :
    (listSetPad l i d v).length = max l.length (i + 1) := by
  simp only [listSetPad, List.length_set, List.length_append, List.length_replicate]
  omega

theorem listSetPad_getD_same {α : Type} (l : List α) (i : Nat) (d v : α) :
    (listSetPad l i d v).getD i d = v := by
  have hlen : i < (l ++ List.replicate (i + 1 - l.length) d).length := by
    simp only [List.length_append, List.length_replicate]
    omega
  rw [listSetPad, List.getD_eq_getElem?_getD, List.getElem?_set_eq hlen,
    Option.getD_some]

theorem listSetPad_getD_other {α : Type} (l : List α) (i j : Nat) (d v : α)
    (h : i ≠ j) : (listSetPad l i d v).getD j d = l.getD j d := by
  rw [listSetPad, List.getD_eq_getElem?_getD, List.getElem?_set_ne h]
  rcases lt_or_ge j l.length with hj | hj
  · rw [List.getElem?_append_left hj, List.getD_eq_getElem?_getD]
  · rw [List.getElem?_append_right hj, List.getElem?_replicate,
      List.getD_eq_getElem?_getD, List.getElem?_eq_none hj]
    split <;> simp

theorem getD_eq_default_of_le {α : Type} (l : List α) (j : Nat) (d : α)
    (h : l.length ≤ j) : l.getD j d = d := by
  rw [List.getD_eq_getElem?_getD, List.getElem?_eq_none h]
  rfl

/-! Effect of one artifact insertion on the shard arrays. -/

theorem insertArtifact_slotGet_same (st : GenState) (idx : Nat) (link : List Char) :
    slotGet (insertArtifact st idx link) (idx / IMAGES_PER_ZIP) =
      some (zipFile ((slotGet st (idx / IMAGES_PER_ZIP)).getD [])
        (entryName link idx) idx) := by
  simp only [insertArtifact, slotGet]
  split
  · rename_i hnone
    simp only [slotGet, Option.isNone_iff_eq_none] at hnone
    simp only [listSetPad_getD_same, hnone, Option.getD_some, Option.getD_none]
  · simp only [listSetPad_getD_same]

theorem insertArtifact_slotGet_other (st : GenState) (idx : Nat) (link : List Char)
    (z : Nat) (h : idx / IMAGES_PER_ZIP ≠ z) :
    slotGet (insertArtifact st idx link) z = slotGet st z := by
  simp only [insertArtifact, slotGet]
  split
  · simp only [listSetPad_getD_other _ _ _ _ _ h]
  · simp only [listSetPad_getD_other _ _ _ _ _ h]

theorem insertArtifact_countGet_same (st : GenState) (idx : Nat) (link : List Char) :
    countGet (insertArtifact st idx link) (idx / IMAGES_PER_ZIP) =
      (if (slotGet st (idx / IMAGES_PER_ZIP)).isNone then 0
        else countGet st (idx / IMAGES_PER_ZIP)) + 1 := by
  simp only [insertArtifact, countGet, slotGet]
  split
  · rename_i hnone
    simp only [slotGet, Option.isNone_iff_eq_none] at hnone
    simp only [listSetPad_getD_same, hnone, if_pos rfl]
  · rename_i hsome
    have hs : ¬(slotGet st (idx / IMAGES_PER_ZIP)).isNone = true := by
      simpa [slotGet] using hsome
    simp only [listSetPad_getD_same, if_neg hs]

theorem insertArtifact_countGet_other (st : GenState) (idx : Nat) (link : List Char)
    (z : Nat) (h : idx / IMAGES_PER_ZIP ≠ z) :
    countGet (insertArtifact st idx link) z = countGet st z := by
  simp only [insertArtifact, countGet]
  split
  · simp only [listSetPad_getD_other _ _ _ _ _ h]
  · simp only [listSetPad_getD_other _ _ _ _ _ h]

theorem insertArtifact_emitted (st : GenState) (idx : Nat) (link : List Char) :
    (insertArtifact st idx link).emitted = st.emitted := by
  simp only [insertArtifact]
  split <;> rfl

theorem insertArtifact_progressIdx (st : GenState) (idx : Nat) (link : List Char) :
    (insertArtifact st idx link).progressIdx = st.progressIdx := by
  simp only [insertArtifact]
  split <;> rfl

theorem insertArtifact_zipFiles_length (st : GenState) (idx : Nat) (link : List Char) :
    (insertArtifact st idx link).zipFiles.length =
      max st.zipFiles.length (idx / IMAGES_PER_ZIP + 1) := by
  simp only [insertArtifact]
  split <;> simp only [listSetPad_length] <;> omega

/-! Membership and prefix-extension lemmas for the window descriptions. -/

theorem mem_enum_take {α : Type} {l : List α} {i : Nat} {x : Nat × α}
    (h : x ∈ l.enum.take i) : x.1 < i ∧ l[x.1]? = some x.2 := by
  obtain ⟨t, ht⟩ := List.mem_iff_getElem?.mp h
  rw [List.getElem?_take] at ht
  by_cases hti : t < i
  · rw [if_pos hti, List.getElem?_enum] at ht
    rcases hx : l[t]? with _ | a
    · rw [hx] at ht; simp at ht
    · rw [hx] at ht
      have ht2 : some (t, a) = some x := ht
      have hxx : (t, a) = x := Option.some.inj ht2
      rw [← hxx]
      exact ⟨hti, hx⟩
  · rw [if_neg hti] at ht
    simp at ht

theorem mem_windowArtsUpto {rows : List Row} {i z : Nat} {r : Nat × Row}
    (h : r ∈ windowArtsUpto rows i z) :
    r.1 < i ∧ rows[r.1]? = some r.2 ∧ r.2.2 = RowOutcome.ok ∧
      r.1 / IMAGES_PER_ZIP = z := by
  rw [windowArtsUpto, List.mem_filter] at h
  obtain ⟨hmem, hcond⟩ := h
  obtain ⟨h1, h2⟩ := mem_enum_take hmem
  simp only [decide_eq_true_eq] at hcond
  exact ⟨h1, h2, hcond.1, hcond.2⟩

theorem windowArtsUpto_zero (rows : List Row) (z : Nat) :
    windowArtsUpto rows 0 z = [] := by
  simp [windowArtsUpto]

theorem windowArtsUpto_succ (rows : List Row) (j z : Nat) (r : Row)
    (hr : rows[j]? = some r) :
    windowArtsUpto rows (j + 1) z =
      windowArtsUpto rows j z ++
        (if r.2 = RowOutcome.ok ∧ j / IMAGES_PER_ZIP = z then [(j, r)] else []) := by
  have htake : rows.enum.take (j + 1) = rows.enum.take j ++ [(j, r)] := by
    rw [List.take_succ, List.getElem?_enum, hr]
    rfl
  rw [windowArtsUpto, windowArtsUpto, htake, List.filter_append]
  congr 1
  rw [List.filter_cons]
  split
  · rename_i hcond
    simp only [decide_eq_true_eq] at hcond
    rw [if_pos hcond]
    rfl
  · rename_i hcond
    simp only [decide_eq_true_eq] at hcond
    rw [if_neg hcond]
    rfl

theorem windowArtsUpto_stable (rows : List Row) (i z : Nat)
    (h : rows.length ≤ i) : windowArtsUpto rows i z = windowArts rows z := by
  rw [windowArts, windowArtsUpto, windowArtsUpto,
    List.take_of_length_le (by rw [List.enum_length]; exact h),
    List.take_of_length_le (by rw [List.enum_length])]

theorem windowArtsUpto_sublist (rows : List Row) (i j z : Nat) (h : i ≤ j) :
    (windowArtsUpto rows i z).Sublist (windowArtsUpto rows j z) := by
  rw [windowArtsUpto, windowArtsUpto]
  apply List.Sublist.filter
  have : rows.enum.take i = (rows.enum.take j).take i := by
    rw [List.take_take, Nat.min_eq_left h]
  rw [this]
  exact List.take_sublist _ _

theorem windowArtsUpto_map_fst_nodup (rows : List Row) (i z : Nat) :
    ((windowArtsUpto rows i z).map Prod.fst).Nodup := by
  have hsub : (windowArtsUpto rows i z).Sublist rows.enum := by
    rw [windowArtsUpto]
    exact (List.filter_sublist _).trans (List.take_sublist _ _)
  have hmap := List.Sublist.map Prod.fst hsub
  rw [List.enum_map_fst] at hmap
  exact List.Nodup.sublist hmap (List.nodup_range _)

/-- Pigeonhole bound: a window holds at most one artifact per index of
IntervalIco (2000 z) (min i (2000 z + 2000)). -/
theorem wcountUpto_le (rows : List Row) (i z : Nat) :
    wcountUpto rows i z ≤
      min i (z * IMAGES_PER_ZIP + IMAGES_PER_ZIP) - z * IMAGES_PER_ZIP := by
  have hnod := windowArtsUpto_map_fst_nodup rows i z
  have hsubset : ((windowArtsUpto rows i z).map Prod.fst).toFinset ⊆
      Finset.Ico (z * IMAGES_PER_ZIP) (min i (z * IMAGES_PER_ZIP + IMAGES_PER_ZIP)) := by
    intro x hx
    rw [List.mem_toFinset, List.mem_map] at hx
    obtain ⟨r, hr, hrx⟩ := hx
    obtain ⟨h1, _, _, h4⟩ := mem_windowArtsUpto hr
    rw [Finset.mem_Ico]
    subst hrx
    have hM : IMAGES_PER_ZIP = 2000 := rfl
    rw [hM] at h4 ⊢
    omega
  have hcard := Finset.card_le_card hsubset
  rw [List.toFinset_card_of_nodup hnod, Nat.card_Ico] at hcard
  rw [wcountUpto, ← List.length_map _ Prod.fst]
  exact hcard

/-- A full window is entirely below the cut: every index of window z is
below i whenever the window already holds 2000 artifacts at cut i. -/
theorem window_complete_of_full (rows : List Row) (i z : Nat)
    (h : wcountUpto rows i z = IMAGES_PER_ZIP) :
    z * IMAGES_PER_ZIP + IMAGES_PER_ZIP ≤ i := by
  have hb := wcountUpto_le rows i z
  rw [h] at hb
  have hM : IMAGES_PER_ZIP = 2000 := rfl
  rw [hM] at hb ⊢
  omega

theorem windowArtsUpto_eq_of_full (rows : List Row) (i z : Nat)
    (h : wcountUpto rows i z = IMAGES_PER_ZIP) :
    windowArtsUpto rows i z = windowArts rows z := by
  rcases le_or_lt rows.length i with hn | hn
  · exact windowArtsUpto_stable rows i z hn
  · have hsub := windowArtsUpto_sublist rows i rows.length z hn.le
    apply hsub.eq_of_length
    have h1 : wcountUpto rows i z ≤ wcountUpto rows rows.length z :=
      hsub.length_le
    have h2 := wcountUpto_le rows rows.length z
    have hM : IMAGES_PER_ZIP = 2000 := rfl
    rw [hM] at h h2
    show wcountUpto rows i z = wcountUpto rows rows.length z
    omega

theorem zipOfArts_concat (l : List (Nat × Row)) (j : Nat) (r : Row) :
    zipOfArts (l ++ [(j, r)]) = zipFile (zipOfArts l) (entryName r.1 j) j := by
  rw [zipOfArts, List.foldl_append]
  rfl

/-- The invariant between batches: the loop counter i is a multiple of 4,
and the shard arrays, emitted archives and progress history describe
exactly the rows with index below i. -/
structure LoopInv (rows : List Row) (i : Nat) (st : GenState) : Prop where
  hmod : i % BATCH_SIZE = 0
  slot : ∀ z, slotGet st z =
    if wcountUpto rows i z = 0 ∨ wcountUpto rows i z = IMAGES_PER_ZIP then none
    else some (windowZipUpto rows i z)
  count : ∀ z, countGet st z =
    if wcountUpto rows i z = IMAGES_PER_ZIP then 0 else wcountUpto rows i z
  emit : st.emitted =
    ((List.range (numWindows rows.length)).filter
        (fun z => wcountUpto rows i z = IMAGES_PER_ZIP)).map
      (fun z => (z, windowZip rows z))
  prog : st.progressIdx =
    (List.range (i / BATCH_SIZE)).map (fun k => BATCH_SIZE * k)
  len : ∀ z, st.zipFiles.length ≤ z → wcountUpto rows i z = 0

/-- The invariant while a batch's artifacts are being placed: shards full
at the batch start (cut i) are flushed and stay untouched, the rest
reflect the artifacts below the moving cut j; archives and progress are
still those of cut i. -/
structure MidInv (rows : List Row) (i j : Nat) (st : GenState) : Prop where
  slot : ∀ z, slotGet st z =
    if wcountUpto rows i z = IMAGES_PER_ZIP then none
    else if wcountUpto rows j z = 0 then none
    else some (windowZipUpto rows j z)
  count : ∀ z, countGet st z =
    if wcountUpto rows i z = IMAGES_PER_ZIP then 0 else wcountUpto rows j z
  emit : st.emitted =
    ((List.range (numWindows rows.length)).filter
        (fun z => wcountUpto rows i z = IMAGES_PER_ZIP)).map
      (fun z => (z, windowZip rows z))
  prog : st.progressIdx =
    (List.range (i / BATCH_SIZE)).map (fun k => BATCH_SIZE * k)
  len : ∀ z, st.zipFiles.length ≤ z → wcountUpto rows j z = 0

theorem midInv_of_loopInv {rows : List Row} {i : Nat} {st : GenState}
    (h : LoopInv rows i st) : MidInv rows i i st := by
  refine ⟨?_, ?_, h.emit, h.prog, h.len⟩
  · intro z
    rw [h.slot z]
    by_cases hM : wcountUpto rows i z = IMAGES_PER_ZIP
    · rw [if_pos hM, if_pos (Or.inr hM)]
    · rw [if_neg hM]
      by_cases h0 : wcountUpto rows i z = 0
      · rw [if_pos h0, if_pos (Or.inl h0)]
      · rw [if_neg h0, if_neg (by tauto)]
  · intro z
    exact h.count z

theorem midInv_insert {rows : List Row} {i j : Nat} {st : GenState} (r : Row)
    (hr : rows[j]? = some r) (hok : r.2 = RowOutcome.ok) (hij : i ≤ j)
    (hmid : MidInv rows i j st) :
    MidInv rows i (j + 1) (insertArtifact st j r.1) := by
  have hM : IMAGES_PER_ZIP = 2000 := rfl
  have hext : ∀ z, windowArtsUpto rows (j + 1) z =
      windowArtsUpto rows j z ++
        (if r.2 = RowOutcome.ok ∧ j / IMAGES_PER_ZIP = z then [(j, r)] else []) :=
    fun z => windowArtsUpto_succ rows j z r hr
  have hnotfull : wcountUpto rows i (j / IMAGES_PER_ZIP) ≠ IMAGES_PER_ZIP := by
    intro hc
    have := window_complete_of_full rows i (j / IMAGES_PER_ZIP) hc
    rw [hM] at this
    omega
  have hextz : windowArtsUpto rows (j + 1) (j / IMAGES_PER_ZIP) =
      windowArtsUpto rows j (j / IMAGES_PER_ZIP) ++ [(j, r)] := by
    rw [hext (j / IMAGES_PER_ZIP), if_pos ⟨hok, rfl⟩]
  have hextnz : ∀ z, z ≠ j / IMAGES_PER_ZIP →
      windowArtsUpto rows (j + 1) z = windowArtsUpto rows j z := by
    intro z hz
    rw [hext z, if_neg (by tauto)]
    simp
  have hcnz : ∀ z, z ≠ j / IMAGES_PER_ZIP →
      wcountUpto rows (j + 1) z = wcountUpto rows j z := by
    intro z hz
    rw [wcountUpto, wcountUpto, hextnz z hz]
  have hcz : wcountUpto rows (j + 1) (j / IMAGES_PER_ZIP) =
      wcountUpto rows j (j / IMAGES_PER_ZIP) + 1 := by
    rw [wcountUpto, wcountUpto, hextz]
    simp
  have hgetD : (slotGet st (j / IMAGES_PER_ZIP)).getD [] =
      windowZipUpto rows j (j / IMAGES_PER_ZIP) := by
    rw [hmid.slot _, if_neg hnotfull]
    by_cases h0 : wcountUpto rows j (j / IMAGES_PER_ZIP) = 0
    · rw [if_pos h0, Option.getD_none, windowZipUpto]
      rw [wcountUpto, List.length_eq_zero] at h0
      rw [h0]
      rfl
    · rw [if_neg h0, Option.getD_some]
  refine ⟨?_, ?_, ?_, ?_, ?_⟩
  · intro z
    by_cases hz : z = j / IMAGES_PER_ZIP
    · subst hz
      rw [insertArtifact_slotGet_same, hgetD, if_neg hnotfull, hcz,
        if_neg (by omega)]
      rw [windowZipUpto, windowZipUpto, hextz, zipOfArts_concat]
    · rw [insertArtifact_slotGet_other _ _ _ _ (by tauto), hmid.slot z,
        hcnz z hz]
      by_cases hf : wcountUpto rows i z = IMAGES_PER_ZIP
      · rw [if_pos hf, if_pos hf]
      · rw [if_neg hf, if_neg hf]
        by_cases h0 : wcountUpto rows j z = 0
        · rw [if_pos h0, if_pos h0]
        · rw [if_neg h0, if_neg h0, windowZipUpto, windowZipUpto, hextnz z hz]
  · intro z
    by_cases hz : z = j / IMAGES_PER_ZIP
    · subst hz
      rw [insertArtifact_countGet_same, if_neg hnotfull, hcz]
      by_cases h0 : wcountUpto rows j (j / IMAGES_PER_ZIP) = 0
      · rw [hmid.slot _, if_neg hnotfull, if_pos h0]
        simp [h0]
      · have hsome : ¬(slotGet st (j / IMAGES_PER_ZIP)).isNone = true := by
          rw [hmid.slot _, if_neg hnotfull, if_neg h0]
          simp
        rw [if_neg hsome, hmid.count _, if_neg hnotfull]
    · rw [insertArtifact_countGet_other _ _ _ _ (by tauto), hmid.count z,
        hcnz z hz]
  · rw [insertArtifact_emitted]
    exact hmid.emit
  · rw [insertArtifact_progressIdx]
    exact hmid.prog
  · intro z hz
    rw [insertArtifact_zipFiles_length] at hz
    have hz1 : st.zipFiles.length ≤ z := by omega
    have hz2 : z ≠ j / IMAGES_PER_ZIP := by omega
    rw [hcnz z hz2]
    exact hmid.len z hz1

theorem midInv_skip {rows : List Row} {i j : Nat} {st : GenState} (r : Row)
    (hr : rows[j]? = some r) (hnok : r.2 ≠ RowOutcome.ok)
    (hmid : MidInv rows i j st) : MidInv rows i (j + 1) st := by
  have hext : ∀ z, windowArtsUpto rows (j + 1) z =
      windowArtsUpto rows j z ++
        (if r.2 = RowOutcome.ok ∧ j / IMAGES_PER_ZIP = z then [(j, r)] else []) :=
    fun z => windowArtsUpto_succ rows j z r hr
  have hsame : ∀ z, windowArtsUpto rows (j + 1) z = windowArtsUpto rows j z := by
    intro z
    rw [hext z, if_neg (by tauto)]
    simp
  have hcsame : ∀ z, wcountUpto rows (j + 1) z = wcountUpto rows j z := by
    intro z
    rw [wcountUpto, wcountUpto, hsame z]
  refine ⟨?_, ?_, hmid.emit, hmid.prog, ?_⟩
  · intro z
    rw [hmid.slot z, hcsame z, windowZipUpto, windowZipUpto, hsame z]
  · intro z
    rw [hmid.count z, hcsame z]
  · intro z hz
    rw [hcsame z]
    exact hmid.len z hz

theorem chunks4_cons {α : Type} : ∀ (l : List α), l ≠ [] →
    chunks4 l = l.take 4 :: chunks4 (l.drop 4)
  | [], h => absurd rfl h
  | [_], _ => rfl
  | [_, _], _ => rfl
  | [_, _, _], _ => rfl
  | _ :: _ :: _ :: _ :: _, _ => rfl

/-- Folding one batch slice through the placement step advances the moving
cut by the slice length. -/
theorem processBatch_mid (rows : List Row) (i : Nat) :
    ∀ (d j : Nat) (st : GenState), i ≤ j → MidInv rows i j st →
      MidInv rows i (j + ((rows.enum.drop j).take d).length)
        (processBatch st ((rows.enum.drop j).take d)) := by
  intro d
  induction d with
  | zero =>
    intro j st hij hmid
    simpa [processBatch] using hmid
  | succ d ih =>
    intro j st hij hmid
    by_cases hj : j < rows.length
    · have hjl : j < rows.enum.length := by
        rw [List.enum_length]
        exact hj
      have hdrop : rows.enum.drop j = (j, rows[j]) :: rows.enum.drop (j + 1) := by
        rw [List.drop_eq_getElem_cons hjl, List.getElem_enum]
      have hr : rows[j]? = some rows[j] := List.getElem?_eq_getElem hj
      rw [hdrop, List.take_succ_cons]
      by_cases hok : (rows[j]).2 = RowOutcome.ok
      · have hmid2 := midInv_insert rows[j] hr hok hij hmid
        have h2 := ih (j + 1) (insertArtifact st j (rows[j]).1)
          (by omega) hmid2
        have hstep : processBatch st ((j, rows[j]) :: (rows.enum.drop (j + 1)).take d) =
            processBatch (insertArtifact st j (rows[j]).1)
              ((rows.enum.drop (j + 1)).take d) := by
          rw [processBatch, processBatch, List.foldl_cons, if_pos hok]
        rw [hstep, List.length_cons,
          show j + (((rows.enum.drop (j + 1)).take d).length + 1) =
            (j + 1) + ((rows.enum.drop (j + 1)).take d).length by omega]
        exact h2
      · have hmid2 := midInv_skip rows[j] hr hok hmid
        have h2 := ih (j + 1) st (by omega) hmid2
        have hstep : processBatch st ((j, rows[j]) :: (rows.enum.drop (j + 1)).take d) =
            processBatch st ((rows.enum.drop (j + 1)).take d) := by
          rw [processBatch, processBatch, List.foldl_cons, if_neg hok]
        rw [hstep, List.length_cons,
          show j + (((rows.enum.drop (j + 1)).take d).length + 1) =
            (j + 1) + ((rows.enum.drop (j + 1)).take d).length by omega]
        exact h2
    · have hdrop : rows.enum.drop j = [] := by
        apply List.drop_eq_nil_of_le
        rw [List.enum_length]
        omega
      rw [hdrop]
      simpa [processBatch] using hmid

/-! Effect of the mid-run flush scan. -/

theorem flushStep_emitted (st : GenState) (z : Nat) :
    (flushStep st z).emitted = st.emitted ++
      (if (slotGet st z).isSome ∧ countGet st z = IMAGES_PER_ZIP
        then [(z, (slotGet st z).getD [])] else []) := by
  simp only [flushStep]
  rcases h : slotGet st z with _ | zc
  · simp [h]
  · by_cases hc : countGet st z = IMAGES_PER_ZIP
    · simp [h, hc]
    · simp [h, hc]

theorem flushStep_slotGet (st : GenState) (z w : Nat) :
    slotGet (flushStep st z) w =
      if w = z ∧ (slotGet st z).isSome ∧ countGet st z = IMAGES_PER_ZIP
        then none else slotGet st w := by
  simp only [flushStep]
  rcases h : slotGet st z with _ | zc
  · dsimp only
    rw [if_neg (by simp)]
  · dsimp only
    by_cases hc : countGet st z = IMAGES_PER_ZIP
    · rw [if_pos hc]
      by_cases hw : w = z
      · subst hw
        rw [if_pos ⟨rfl, rfl, hc⟩]
        simp only [slotGet]
        exact listSetPad_getD_same _ _ _ _
      · rw [if_neg (by tauto)]
        simp only [slotGet]
        exact listSetPad_getD_other _ _ _ _ _ (by tauto)
    · rw [if_neg hc, if_neg (by tauto)]

theorem flushStep_countGet (st : GenState) (z w : Nat) :
    countGet (flushStep st z) w =
      if w = z ∧ (slotGet st z).isSome ∧ countGet st z = IMAGES_PER_ZIP
        then 0 else countGet st w := by
  simp only [flushStep]
  rcases h : slotGet st z with _ | zc
  · dsimp only
    rw [if_neg (by simp)]
  · dsimp only
    by_cases hc : countGet st z = IMAGES_PER_ZIP
    · rw [if_pos hc]
      by_cases hw : w = z
      · subst hw
        rw [if_pos ⟨rfl, rfl, hc⟩]
        simp only [countGet]
        exact listSetPad_getD_same _ _ _ _
      · rw [if_neg (by tauto)]
        simp only [countGet]
        exact listSetPad_getD_other _ _ _ _ _ (by tauto)
    · rw [if_neg hc, if_neg (by tauto)]

theorem flushStep_zipFiles_length (st : GenState) (z : Nat) :
    (flushStep st z).zipFiles.length = st.zipFiles.length := by
  simp only [flushStep]
  rcases h : slotGet st z with _ | zc
  · rfl
  · dsimp only
    by_cases hc : countGet st z = IMAGES_PER_ZIP
    · rw [if_pos hc]
      have hz : z < st.zipFiles.length := by
        by_contra hge
        have := getD_eq_default_of_le st.zipFiles z none (by omega)
        simp only [slotGet] at h
        rw [this] at h
        exact Option.noConfusion h
      simp only [listSetPad_length]
      omega
    · rw [if_neg hc]

theorem flushStep_progressIdx (st : GenState) (z : Nat) :
    (flushStep st z).progressIdx = st.progressIdx := by
  simp only [flushStep]
  rcases h : slotGet st z with _ | zc
  · rfl
  · dsimp only
    by_cases hc : countGet st z = IMAGES_PER_ZIP
    · rw [if_pos hc]
    · rw [if_neg hc]

/-- Effect of scanning a duplicate-free list of slots: every full open
shard in the list is emitted, in list order, and cleared. -/
theorem flushFold (L : List Nat) :
    ∀ (st : GenState), L.Nodup →
      (L.foldl flushStep st).emitted = st.emitted ++
        (L.filter (fun z =>
            decide ((slotGet st z).isSome ∧ countGet st z = IMAGES_PER_ZIP))).map
          (fun z => (z, (slotGet st z).getD [])) ∧
      (∀ w, slotGet (L.foldl flushStep st) w =
        if w ∈ L ∧ (slotGet st w).isSome ∧ countGet st w = IMAGES_PER_ZIP
          then none else slotGet st w) ∧
      (∀ w, countGet (L.foldl flushStep st) w =
        if w ∈ L ∧ (slotGet st w).isSome ∧ countGet st w = IMAGES_PER_ZIP
          then 0 else countGet st w) ∧
      (L.foldl flushStep st).zipFiles.length = st.zipFiles.length ∧
      (L.foldl flushStep st).progressIdx = st.progressIdx := by
  induction L with
  | nil =>
    intro st _
    refine ⟨by simp, ?_, ?_, rfl, rfl⟩
    · intro w
      rw [if_neg (by simp)]
      rfl
    · intro w
      rw [if_neg (by simp)]
      rfl
  | cons z L ih =>
    intro st hnd
    have hz : z ∉ L := (List.nodup_cons.mp hnd).1
    have hndL : L.Nodup := (List.nodup_cons.mp hnd).2
    obtain ⟨ihe, ihs, ihc, ihl, ihp⟩ := ih (flushStep st z) hndL
    have hsz : ∀ w ∈ L, slotGet (flushStep st z) w = slotGet st w := by
      intro w hw
      rw [flushStep_slotGet]
      rw [if_neg]
      rintro ⟨hwz, _⟩
      exact hz (hwz ▸ hw)
    have hcz : ∀ w ∈ L, countGet (flushStep st z) w = countGet st w := by
      intro w hw
      rw [flushStep_countGet]
      rw [if_neg]
      rintro ⟨hwz, _⟩
      exact hz (hwz ▸ hw)
    rw [List.foldl_cons]
    refine ⟨?_, ?_, ?_, by rw [ihl, flushStep_zipFiles_length],
      by rw [ihp, flushStep_progressIdx]⟩
    · rw [ihe, flushStep_emitted, List.filter_cons]
      have hfc : L.filter (fun w =>
            decide ((slotGet (flushStep st z) w).isSome ∧
              countGet (flushStep st z) w = IMAGES_PER_ZIP)) =
          L.filter (fun w =>
            decide ((slotGet st w).isSome ∧ countGet st w = IMAGES_PER_ZIP)) := by
        apply List.filter_congr
        intro w hw
        rw [hsz w hw, hcz w hw]
      have hmc : (L.filter (fun w =>
            decide ((slotGet st w).isSome ∧ countGet st w = IMAGES_PER_ZIP))).map
            (fun w => (w, (slotGet (flushStep st z) w).getD [])) =
          (L.filter (fun w =>
            decide ((slotGet st w).isSome ∧ countGet st w = IMAGES_PER_ZIP))).map
            (fun w => (w, (slotGet st w).getD [])) := by
        apply List.map_congr_left
        intro w hw
        rw [hsz w (List.mem_of_mem_filter hw)]
      rw [hfc, hmc]
      by_cases hcond : (slotGet st z).isSome = true ∧ countGet st z = IMAGES_PER_ZIP
      · simp only [if_pos hcond, decide_eq_true_eq, hcond, and_self, if_true,
          List.map_cons, List.append_assoc, List.singleton_append]
      · simp only [if_neg hcond, decide_eq_true_eq, hcond, if_false,
          List.append_nil]
    · intro w
      rw [ihs w]
      by_cases hwL : w ∈ L
      · rw [hsz w hwL, hcz w hwL]
        by_cases hcond : (slotGet st w).isSome = true ∧ countGet st w = IMAGES_PER_ZIP
        · rw [if_pos ⟨hwL, hcond.1, hcond.2⟩,
            if_pos ⟨List.mem_cons_of_mem z hwL, hcond.1, hcond.2⟩]
        · rw [if_neg (by tauto), if_neg (by tauto)]
      · rw [if_neg (by tauto), flushStep_slotGet]
        by_cases hwz : w = z
        · subst hwz
          by_cases hcond : (slotGet st w).isSome = true ∧ countGet st w = IMAGES_PER_ZIP
          · rw [if_pos ⟨rfl, hcond.1, hcond.2⟩,
              if_pos ⟨List.mem_cons_self w L, hcond.1, hcond.2⟩]
          · rw [if_neg (by tauto), if_neg (by tauto)]
        · have hnc : ¬(w ∈ z :: L ∧ (slotGet st w).isSome = true ∧
              countGet st w = IMAGES_PER_ZIP) := by
            rintro ⟨hmem, _⟩
            rcases List.mem_cons.mp hmem with h1 | h1
            · exact hwz h1
            · exact hwL h1
          rw [if_neg (by tauto), if_neg hnc]
    · intro w
      rw [ihc w]
      by_cases hwL : w ∈ L
      · rw [hsz w hwL, hcz w hwL]
        by_cases hcond : (slotGet st w).isSome = true ∧ countGet st w = IMAGES_PER_ZIP
        · rw [if_pos ⟨hwL, hcond.1, hcond.2⟩,
            if_pos ⟨List.mem_cons_of_mem z hwL, hcond.1, hcond.2⟩]
        · rw [if_neg (by tauto), if_neg (by tauto)]
      · rw [if_neg (by tauto), flushStep_countGet]
        by_cases hwz : w = z
        · subst hwz
          by_cases hcond : (slotGet st w).isSome = true ∧ countGet st w = IMAGES_PER_ZIP
          · rw [if_pos ⟨rfl, hcond.1, hcond.2⟩,
              if_pos ⟨List.mem_cons_self w L, hcond.1, hcond.2⟩]
          · rw [if_neg (by tauto), if_neg (by tauto)]
        · have hnc : ¬(w ∈ z :: L ∧ (slotGet st w).isSome = true ∧
              countGet st w = IMAGES_PER_ZIP) := by
            rintro ⟨hmem, _⟩
            rcases List.mem_cons.mp hmem with h1 | h1
            · exact hwz h1
            · exact hwL h1
          rw [if_neg (by tauto), if_neg hnc]

/-! Effect of the final flush scan: archives are emitted for every open
slot, in slot order; nothing else changes. -/

theorem finalFlushStep_fields (st : GenState) (z : Nat) :
    (finalFlushStep st z).emitted = st.emitted ++
      (if (slotGet st z).isSome then [(z, (slotGet st z).getD [])] else []) ∧
    (finalFlushStep st z).zipFiles = st.zipFiles ∧
    (finalFlushStep st z).zipImageCounts = st.zipImageCounts ∧
    (finalFlushStep st z).progressIdx = st.progressIdx := by
  simp only [finalFlushStep]
  rcases h : slotGet st z with _ | zc
  · exact ⟨by simp, rfl, rfl, rfl⟩
  · exact ⟨by simp, rfl, rfl, rfl⟩

theorem finalFold (L : List Nat) :
    ∀ (st : GenState),
      (L.foldl finalFlushStep st).emitted = st.emitted ++
        (L.filter (fun z => (slotGet st z).isSome)).map
          (fun z => (z, (slotGet st z).getD [])) ∧
      (L.foldl finalFlushStep st).zipFiles = st.zipFiles := by
  induction L with
  | nil =>
    intro st
    exact ⟨by simp, rfl⟩
  | cons z L ih =>
    intro st
    obtain ⟨ihe, ihs⟩ := ih (finalFlushStep st z)
    obtain ⟨he, hf, _, _⟩ := finalFlushStep_fields st z
    have hslots : ∀ w, slotGet (finalFlushStep st z) w = slotGet st w := by
      intro w
      simp only [slotGet, hf]
    rw [List.foldl_cons]
    constructor
    · rw [ihe, he, List.filter_cons]
      have hfc : L.filter (fun w => (slotGet (finalFlushStep st z) w).isSome) =
          L.filter (fun w => (slotGet st w).isSome) := by
        apply List.filter_congr
        intro w _
        rw [hslots w]
      have hmc : (L.filter (fun w => (slotGet st w).isSome)).map
            (fun w => (w, (slotGet (finalFlushStep st z) w).getD [])) =
          (L.filter (fun w => (slotGet st w).isSome)).map
            (fun w => (w, (slotGet st w).getD [])) := by
        apply List.map_congr_left
        intro w _
        rw [hslots w]
      rw [hfc, hmc]
      by_cases hcond : (slotGet st z).isSome = true
      · rw [if_pos hcond, if_pos hcond, List.map_cons, List.append_assoc,
          List.singleton_append]
      · rw [if_neg hcond, if_neg hcond, List.append_nil]
    · rw [ihs, hf]

/-! Counting and window-stability facts used to assemble the invariant
after a flush. -/

theorem wcountUpto_mono (rows : List Row) {i j : Nat} (z : Nat) (h : i ≤ j) :
    wcountUpto rows i z ≤ wcountUpto rows j z :=
  (windowArtsUpto_sublist rows i j z h).length_le

theorem wcountUpto_cap (rows : List Row) (i z : Nat) :
    wcountUpto rows i z ≤ IMAGES_PER_ZIP := by
  have h := wcountUpto_le rows i z
  have hM : IMAGES_PER_ZIP = 2000 := rfl
  rw [hM] at h ⊢
  omega

theorem windowArtsUpto_stable_window (rows : List Row) (z i : Nat)
    (hw : z * IMAGES_PER_ZIP + IMAGES_PER_ZIP ≤ i) :
    ∀ j, i ≤ j → windowArtsUpto rows j z = windowArtsUpto rows i z := by
  intro j
  induction j with
  | zero =>
    intro hij
    have : i = 0 := by omega
    rw [this]
  | succ j ih =>
    intro hij
    rcases Nat.lt_or_ge i (j + 1) with h1 | h1
    · have hii : i ≤ j := by omega
      rcases hrj : rows[j]? with _ | r
      · have hn : rows.length ≤ j := by
          by_contra hc
          rw [List.getElem?_eq_getElem (by omega)] at hrj
          exact Option.noConfusion hrj
        rw [windowArtsUpto_stable rows (j + 1) z (by omega),
          ← windowArtsUpto_stable rows j z hn]
        exact ih hii
      · rw [windowArtsUpto_succ rows j z r hrj, if_neg ?_, List.append_nil]
        · exact ih hii
        · rintro ⟨_, hdiv⟩
          have hM : IMAGES_PER_ZIP = 2000 := rfl
          rw [hM] at hdiv hw
          omega
    · have : i = j + 1 := by omega
      rw [this]

theorem wcountUpto_full_of_earlier_full (rows : List Row) (i j z : Nat)
    (hij : i ≤ j) (h : wcountUpto rows i z = IMAGES_PER_ZIP) :
    wcountUpto rows j z = IMAGES_PER_ZIP := by
  have h1 := wcountUpto_mono rows z hij
  have h2 := wcountUpto_cap rows j z
  omega

/-! Filter-over-range bookkeeping for the emitted list. -/

theorem filter_range_congr (p : Nat → Bool) {A B : Nat}
    (hA : ∀ z, p z = true → z < A) (hAB : A ≤ B) :
    (List.range B).filter p = (List.range A).filter p := by
  have hB : B = A + (B - A) := by omega
  rw [hB, List.range_add, List.filter_append]
  have h2 : (List.filter p ((List.range (B - A)).map (fun x => A + x))) = [] := by
    rw [List.filter_eq_nil_iff]
    intro a ha
    rw [List.mem_map] at ha
    obtain ⟨x, _, rfl⟩ := ha
    intro hp
    have := hA _ hp
    omega
  rw [h2, List.append_nil]

theorem filter_range_split (N : Nat) (p pn : Nat → Bool)
    (hord : ∀ a b, p a = true → pn b = true → a < b) :
    (List.range N).filter (fun z => p z || pn z) =
      (List.range N).filter p ++ (List.range N).filter pn := by
  induction N with
  | zero => rfl
  | succ N ih =>
    rw [List.range_succ, List.filter_append, List.filter_append,
      List.filter_append, ih]
    by_cases hp : p N = true
    · have hpn : pn N = false := by
        rcases hx : pn N with _ | _
        · rfl
        · exact absurd (hord N N hp hx) (by omega)
      have hnil : (List.range N).filter pn = [] := by
        rw [List.filter_eq_nil_iff]
        intro b hb hx
        have := hord N b hp hx
        rw [List.mem_range] at hb
        omega
      simp [hp, hpn, hnil]
    · by_cases hpn : pn N = true
      · simp [hp, hpn, List.append_assoc]
      · simp [hp, hpn]

/-- Assembling the between-batch invariant after the mid-run flush scan.
stM is the state right after a batch's artifacts were placed and the
progress update pushed: shards full since before the batch are already
flushed, the rest hold the artifacts below the new cut. -/
theorem flushFull_loopInv (rows : List Row) (i : Nat) (stM : GenState)
    (hmod : i % BATCH_SIZE = 0)
    (hslot : ∀ z, slotGet stM z =
      if wcountUpto rows i z = IMAGES_PER_ZIP then none
      else if wcountUpto rows (i + BATCH_SIZE) z = 0 then none
      else some (windowZipUpto rows (i + BATCH_SIZE) z))
    (hcount : ∀ z, countGet stM z =
      if wcountUpto rows i z = IMAGES_PER_ZIP then 0
      else wcountUpto rows (i + BATCH_SIZE) z)
    (hemit : stM.emitted =
      ((List.range (numWindows rows.length)).filter
          (fun z => wcountUpto rows i z = IMAGES_PER_ZIP)).map
        (fun z => (z, windowZip rows z)))
    (hprog : stM.progressIdx =
      (List.range ((i + BATCH_SIZE) / BATCH_SIZE)).map (fun k => BATCH_SIZE * k))
    (hlen : ∀ z, stM.zipFiles.length ≤ z →
      wcountUpto rows (i + BATCH_SIZE) z = 0) :
    LoopInv rows (i + BATCH_SIZE) (flushFull stM) := by
  have hM : IMAGES_PER_ZIP = 2000 := rfl
  have hB : BATCH_SIZE = 4 := rfl
  obtain ⟨he, hs, hc, hl, hp⟩ :=
    flushFold (List.range stM.zipFiles.length) stM (List.nodup_range _)
  have hflush : ∀ z,
      ((slotGet stM z).isSome = true ∧ countGet stM z = IMAGES_PER_ZIP) ↔
      (¬wcountUpto rows i z = IMAGES_PER_ZIP ∧
        wcountUpto rows (i + BATCH_SIZE) z = IMAGES_PER_ZIP) := by
    intro z
    rw [hslot z, hcount z]
    by_cases h1 : wcountUpto rows i z = IMAGES_PER_ZIP
    · simp [h1]
    · rw [if_neg h1, if_neg h1]
      by_cases h0 : wcountUpto rows (i + BATCH_SIZE) z = 0
      · rw [if_pos h0]
        simp only [Option.isSome_none, Bool.false_eq_true, false_and, h0,
          false_iff]
        rintro ⟨_, hcontra⟩
        rw [hM] at hcontra
        omega
      · rw [if_neg h0]
        simp [h1]
  have hmono4 : ∀ z, wcountUpto rows i z ≤ wcountUpto rows (i + BATCH_SIZE) z :=
    fun z => wcountUpto_mono rows z (by omega)
  have hzlt : ∀ z, wcountUpto rows (i + BATCH_SIZE) z ≠ 0 →
      z < stM.zipFiles.length := by
    intro z hz
    by_contra hge
    exact hz (hlen z (by omega))
  have hznumW : ∀ z, wcountUpto rows (i + BATCH_SIZE) z ≠ 0 →
      z < numWindows rows.length := by
    intro z hz
    rcases hW : windowArtsUpto rows (i + BATCH_SIZE) z with _ | ⟨r, tl⟩
    · rw [wcountUpto, hW] at hz
      simp at hz
    · have hr : r ∈ windowArtsUpto rows (i + BATCH_SIZE) z := by
        rw [hW]
        exact List.mem_cons_self _ _
      obtain ⟨_, hget, _, hdiv⟩ := mem_windowArtsUpto hr
      have hlt : r.1 < rows.length := by
        by_contra hge
        rw [List.getElem?_eq_none (by omega)] at hget
        exact Option.noConfusion hget
      rw [numWindows, hM]
      rw [hM] at hdiv
      omega
  unfold flushFull
  refine ⟨?_, ?_, ?_, ?_, ?_, ?_⟩
  · rw [hB] at hmod ⊢
    omega
  · -- slot
    intro z
    rw [hs z]
    by_cases h4 : wcountUpto rows (i + BATCH_SIZE) z = IMAGES_PER_ZIP
    · rw [if_pos (Or.inr h4)]
      by_cases h1 : wcountUpto rows i z = IMAGES_PER_ZIP
      · rw [if_neg ?_, hslot z, if_pos h1]
        rintro ⟨_, hfl⟩
        exact ((hflush z).mp hfl).1 h1
      · have hfl := (hflush z).mpr ⟨h1, h4⟩
        have hzl : z < stM.zipFiles.length := by
          apply hzlt
          rw [h4, hM]
          omega
        rw [if_pos ⟨List.mem_range.mpr hzl, hfl⟩]
    · by_cases h0 : wcountUpto rows (i + BATCH_SIZE) z = 0
      · have h1 : ¬wcountUpto rows i z = IMAGES_PER_ZIP := by
          have := hmono4 z
          rw [hM] at *
          omega
        rw [if_pos (Or.inl h0), if_neg ?_, hslot z, if_neg h1, if_pos h0]
        rintro ⟨_, hfl⟩
        exact h4 ((hflush z).mp hfl).2
      · have h1 : ¬wcountUpto rows i z = IMAGES_PER_ZIP := by
          have hmono := hmono4 z
          have hcap := wcountUpto_cap rows (i + BATCH_SIZE) z
          rw [hM] at *
          omega
        rw [if_neg (show ¬(wcountUpto rows (i + BATCH_SIZE) z = 0 ∨
            wcountUpto rows (i + BATCH_SIZE) z = IMAGES_PER_ZIP) by tauto),
          if_neg ?_, hslot z, if_neg h1, if_neg h0]
        rintro ⟨_, hfl⟩
        exact h4 ((hflush z).mp hfl).2
  · -- count
    intro z
    rw [hc z]
    by_cases h4 : wcountUpto rows (i + BATCH_SIZE) z = IMAGES_PER_ZIP
    · rw [if_pos h4]
      by_cases h1 : wcountUpto rows i z = IMAGES_PER_ZIP
      · rw [if_neg ?_, hcount z, if_pos h1]
        rintro ⟨_, hfl⟩
        exact ((hflush z).mp hfl).1 h1
      · have hfl := (hflush z).mpr ⟨h1, h4⟩
        have hzl : z < stM.zipFiles.length := by
          apply hzlt
          rw [h4, hM]
          omega
        rw [if_pos ⟨List.mem_range.mpr hzl, hfl⟩]
    · have h1 : ¬wcountUpto rows i z = IMAGES_PER_ZIP := by
        have hmono := hmono4 z
        have hcap := wcountUpto_cap rows (i + BATCH_SIZE) z
        rw [hM] at *
        omega
      rw [if_neg h4, if_neg ?_, hcount z, if_neg h1]
      rintro ⟨_, hfl⟩
      exact h4 ((hflush z).mp hfl).2
  · -- emitted
    rw [he, hemit]
    have hpn : (List.range stM.zipFiles.length).filter (fun z =>
          decide ((slotGet stM z).isSome ∧ countGet stM z = IMAGES_PER_ZIP)) =
        (List.range stM.zipFiles.length).filter (fun z =>
          decide (¬wcountUpto rows i z = IMAGES_PER_ZIP ∧
            wcountUpto rows (i + BATCH_SIZE) z = IMAGES_PER_ZIP)) := by
      apply List.filter_congr
      intro z _
      exact decide_eq_decide.mpr (hflush z)
    rw [hpn]
    have hrange : (List.range stM.zipFiles.length).filter (fun z =>
          decide (¬wcountUpto rows i z = IMAGES_PER_ZIP ∧
            wcountUpto rows (i + BATCH_SIZE) z = IMAGES_PER_ZIP)) =
        (List.range (numWindows rows.length)).filter (fun z =>
          decide (¬wcountUpto rows i z = IMAGES_PER_ZIP ∧
            wcountUpto rows (i + BATCH_SIZE) z = IMAGES_PER_ZIP)) := by
      have hbound1 : ∀ z, (decide (¬wcountUpto rows i z = IMAGES_PER_ZIP ∧
          wcountUpto rows (i + BATCH_SIZE) z = IMAGES_PER_ZIP)) = true →
          z < stM.zipFiles.length := by
        intro z hz
        rw [decide_eq_true_eq] at hz
        apply hzlt
        rw [hz.2, hM]
        omega
      have hbound2 : ∀ z, (decide (¬wcountUpto rows i z = IMAGES_PER_ZIP ∧
          wcountUpto rows (i + BATCH_SIZE) z = IMAGES_PER_ZIP)) = true →
          z < numWindows rows.length := by
        intro z hz
        rw [decide_eq_true_eq] at hz
        apply hznumW
        rw [hz.2, hM]
        omega
      rcases le_total stM.zipFiles.length (numWindows rows.length) with hle | hle
      · rw [filter_range_congr _ hbound1 hle]
      · rw [filter_range_congr _ hbound2 hle]
    rw [hrange]
    have hmapc : ((List.range (numWindows rows.length)).filter (fun z =>
          decide (¬wcountUpto rows i z = IMAGES_PER_ZIP ∧
            wcountUpto rows (i + BATCH_SIZE) z = IMAGES_PER_ZIP))).map
          (fun z => (z, (slotGet stM z).getD [])) =
        ((List.range (numWindows rows.length)).filter (fun z =>
          decide (¬wcountUpto rows i z = IMAGES_PER_ZIP ∧
            wcountUpto rows (i + BATCH_SIZE) z = IMAGES_PER_ZIP))).map
          (fun z => (z, windowZip rows z)) := by
      apply List.map_congr_left
      intro z hzf
      rw [List.mem_filter, decide_eq_true_eq] at hzf
      obtain ⟨_, h1, h4⟩ := hzf
      rw [hslot z, if_neg h1, if_neg (by rw [h4, hM]; omega), Option.getD_some]
      rw [windowZipUpto, windowArtsUpto_eq_of_full rows (i + BATCH_SIZE) z h4]
      rfl
    rw [hmapc]
    have hsplit := filter_range_split (numWindows rows.length)
      (fun z => decide (wcountUpto rows i z = IMAGES_PER_ZIP))
      (fun z => decide (¬wcountUpto rows i z = IMAGES_PER_ZIP ∧
        wcountUpto rows (i + BATCH_SIZE) z = IMAGES_PER_ZIP))
      (by
        intro a b hpa hpb
        rw [decide_eq_true_eq] at hpa hpb
        have hca := window_complete_of_full rows i a hpa
        have hcb4 := window_complete_of_full rows (i + BATCH_SIZE) b hpb.2
        have hbnot : ¬(b * IMAGES_PER_ZIP + IMAGES_PER_ZIP ≤ i) := by
          intro hble
          apply hpb.1
          have hstable := windowArtsUpto_stable_window rows b i hble
            (i + BATCH_SIZE) (by omega)
          rw [wcountUpto, ← hstable]
          exact hpb.2
        rw [hM] at hca hcb4 hbnot
        omega)
    have hcover : (List.range (numWindows rows.length)).filter (fun z =>
          decide (wcountUpto rows (i + BATCH_SIZE) z = IMAGES_PER_ZIP)) =
        (List.range (numWindows rows.length)).filter (fun z =>
          decide (wcountUpto rows i z = IMAGES_PER_ZIP) ||
          decide (¬wcountUpto rows i z = IMAGES_PER_ZIP ∧
            wcountUpto rows (i + BATCH_SIZE) z = IMAGES_PER_ZIP)) := by
      apply List.filter_congr
      intro z _
      by_cases h1 : wcountUpto rows i z = IMAGES_PER_ZIP
      · have h4 := wcountUpto_full_of_earlier_full rows i (i + BATCH_SIZE) z
          (by omega) h1
        simp [h1, h4]
      · by_cases h4 : wcountUpto rows (i + BATCH_SIZE) z = IMAGES_PER_ZIP
        · simp [h1, h4]
        · simp [h1, h4]
    rw [hcover, hsplit, List.map_append]
  · -- progress
    rw [hp, hprog]
  · -- length bound
    intro z hz
    rw [hl] at hz
    exact hlen z hz

theorem midInv_clamp {rows : List Row} {i j j2 : Nat} {st : GenState}
    (hn1 : rows.length ≤ j) (hn2 : rows.length ≤ j2)
    (h : MidInv rows i j st) : MidInv rows i j2 st := by
  have harts : ∀ z, windowArtsUpto rows j2 z = windowArtsUpto rows j z := by
    intro z
    rw [windowArtsUpto_stable rows j2 z hn2, windowArtsUpto_stable rows j z hn1]
  have hcnt : ∀ z, wcountUpto rows j2 z = wcountUpto rows j z := by
    intro z
    rw [wcountUpto, wcountUpto, harts z]
  refine ⟨?_, ?_, h.emit, h.prog, ?_⟩
  · intro z
    rw [h.slot z, hcnt z, windowZipUpto, windowZipUpto, harts z]
  · intro z
    rw [h.count z, hcnt z]
  · intro z hz
    rw [hcnt z]
    exact h.len z hz

/-- The loop counter value at which the batch loop exits when entered at
counter i with n rows. -/
def exitIdx (n i : Nat) : Nat :=
  i + BATCH_SIZE * ((n - i + (BATCH_SIZE - 1)) / BATCH_SIZE)

theorem genLoop_exit (rows : List Row) (i : Nat) (st : GenState)
    (hin : rows.length ≤ i) (hinv : LoopInv rows i st) :
    ∃ st', genLoop (chunks4 (rows.enum.drop i)) i st = Except.ok st' ∧
      LoopInv rows (exitIdx rows.length i) st' := by
  have hdrop : rows.enum.drop i = [] := by
    apply List.drop_eq_nil_of_le
    rw [List.enum_length]
    exact hin
  rw [hdrop]
  refine ⟨st, rfl, ?_⟩
  have hex : exitIdx rows.length i = i := by
    rw [exitIdx]
    have h0 : rows.length - i = 0 := by omega
    rw [h0]
    have hB : BATCH_SIZE = 4 := rfl
    rw [hB]
    omega
  rw [hex]
  exact hinv

theorem genLoop_ok (rows : List Row)
    (hq : ∀ r ∈ rows, r.2 ≠ RowOutcome.qrFail) :
    ∀ (d i : Nat) (st : GenState), rows.length - i ≤ d → LoopInv rows i st →
      ∃ st', genLoop (chunks4 (rows.enum.drop i)) i st = Except.ok st' ∧
        LoopInv rows (exitIdx rows.length i) st' := by
  have hB : BATCH_SIZE = 4 := rfl
  intro d
  induction d with
  | zero =>
    intro i st hle hinv
    exact genLoop_exit rows i st (by omega) hinv
  | succ d ih =>
    intro i st hle hinv
    by_cases hlt : i < rows.length
    · have hne : rows.enum.drop i ≠ [] := by
        intro hc
        have hc2 := congrArg List.length hc
        rw [List.length_drop, List.enum_length] at hc2
        simp only [List.length_nil] at hc2
        omega
      have hnofail : ((rows.enum.drop i).take 4).any
          (fun r => r.2.2 = RowOutcome.qrFail) = false := by
        rw [List.any_eq_false]
        intro x hx
        have hxe : x ∈ rows.enum :=
          ((List.take_sublist _ _).trans (List.drop_sublist _ _)).mem hx
        have hxr : x.2 ∈ rows := by
          rw [List.enum_eq_zip_range] at hxe
          have hx2 : (x.1, x.2) ∈ (List.range rows.length).zip rows := by
            simpa using hxe
          exact (List.of_mem_zip hx2).2
        simp only [decide_eq_true_eq]
        exact fun hcq => hq x.2 hxr hcq
      have hmid0 := midInv_of_loopInv hinv
      have hmidB := processBatch_mid rows i 4 i st (le_refl i) hmid0
      have hlen4 : ((rows.enum.drop i).take 4).length = min 4 (rows.length - i) := by
        rw [List.length_take, List.length_drop, List.enum_length]
      have hmid4 : MidInv rows i (i + 4)
          (processBatch st ((rows.enum.drop i).take 4)) := by
        rcases le_or_lt 4 (rows.length - i) with h4 | h4
        · have hidx : i + ((rows.enum.drop i).take 4).length = i + 4 := by
            rw [hlen4]
            omega
          rw [hidx] at hmidB
          exact hmidB
        · have hidx : i + ((rows.enum.drop i).take 4).length = rows.length := by
            rw [hlen4]
            omega
          rw [hidx] at hmidB
          exact midInv_clamp (le_refl _) (by omega) hmidB
      have hinv4 : LoopInv rows (i + BATCH_SIZE) (flushFull
          { processBatch st ((rows.enum.drop i).take 4) with
              progressIdx :=
                (processBatch st ((rows.enum.drop i).take 4)).progressIdx ++ [i] }) := by
        apply flushFull_loopInv rows i _ hinv.hmod
        · intro z
          exact hmid4.slot z
        · intro z
          exact hmid4.count z
        · exact hmid4.emit
        · show (processBatch st ((rows.enum.drop i).take 4)).progressIdx ++ [i] =
            (List.range ((i + BATCH_SIZE) / BATCH_SIZE)).map (fun k => BATCH_SIZE * k)
          rw [hmid4.prog]
          have hmod := hinv.hmod
          rw [hB] at hmod ⊢
          have hdiv : (i + 4) / 4 = i / 4 + 1 := by omega
          rw [hdiv, List.range_succ, List.map_append, List.map_cons, List.map_nil]
          congr 1
          have h44 : 4 * (i / 4) = i := by omega
          rw [h44]
        · intro z hz
          exact hmid4.len z hz
      obtain ⟨st', heq, hinv'⟩ := ih (i + BATCH_SIZE)
        (flushFull { processBatch st ((rows.enum.drop i).take 4) with
          progressIdx :=
            (processBatch st ((rows.enum.drop i).take 4)).progressIdx ++ [i] })
        (by rw [hB]; omega) hinv4
      refine ⟨st', ?_, ?_⟩
      · rw [chunks4_cons _ hne]
        simp only [genLoop]
        rw [if_neg (by simp [hnofail])]
        have hdd : (rows.enum.drop i).drop 4 = rows.enum.drop (i + BATCH_SIZE) := by
          rw [List.drop_drop]
          congr 1
        rw [hdd]
        exact heq
      · have hxx : exitIdx rows.length i = exitIdx rows.length (i + BATCH_SIZE) := by
          rw [exitIdx, exitIdx, hB]
          omega
        rw [hxx]
        exact hinv'
    · exact genLoop_exit rows i st (by omega) hinv

theorem wcountUpto_pos_lt_numWindows (rows : List Row) (j z : Nat)
    (hz : wcountUpto rows j z ≠ 0) : z < numWindows rows.length := by
  have hM : IMAGES_PER_ZIP = 2000 := rfl
  rcases hW : windowArtsUpto rows j z with _ | ⟨r, tl⟩
  · rw [wcountUpto, hW] at hz
    simp at hz
  · have hr : r ∈ windowArtsUpto rows j z := by
      rw [hW]
      exact List.mem_cons_self _ _
    obtain ⟨_, hget, _, hdiv⟩ := mem_windowArtsUpto hr
    have hlt : r.1 < rows.length := by
      by_contra hge
      rw [List.getElem?_eq_none (by omega)] at hget
      exact Option.noConfusion hget
    rw [numWindows, hM]
    rw [hM] at hdiv
    omega

theorem finalFold_progress (L : List Nat) :
    ∀ st, (L.foldl finalFlushStep st).progressIdx = st.progressIdx := by
  induction L with
  | nil =>
    intro st
    rfl
  | cons z L ih =>
    intro st
    rw [List.foldl_cons, ih, (finalFlushStep_fields st z).2.2.2]

theorem loopInv_init (rows : List Row) : LoopInv rows 0 ⟨[], [], [], []⟩ := by
  have hM : IMAGES_PER_ZIP = 2000 := rfl
  have hz : ∀ z, wcountUpto rows 0 z = 0 := by
    intro z
    rw [wcountUpto, windowArtsUpto_zero]
    rfl
  refine ⟨rfl, ?_, ?_, ?_, rfl, ?_⟩
  · intro z
    rw [hz z, if_pos (Or.inl rfl)]
    rfl
  · intro z
    rw [hz z, if_neg (by rw [hM]; omega)]
    rfl
  · show ([] : List (Nat × Zip)) = _
    symm
    rw [List.map_eq_nil_iff, List.filter_eq_nil_iff]
    intro a _
    rw [hz a]
    simp [hM]
  · intro z _
    exact hz z

/-- The characterization of a run with no QR-encode rejection: the loop
completes, the emitted archives are the full windows (flushed at capacity,
ascending) followed by the open windows (final flush, ascending), and the
recorded progress counters are 0, 4, 8, ... one per batch. -/
theorem generateImages_characterization (rows : List Row) (hne : rows ≠ [])
    (hq : ∀ r ∈ rows, r.2 ≠ RowOutcome.qrFail) :
    generateImages true rows =
      GenResult.done (genSpecEmitted rows) (genSpecIdx rows.length) := by
  have hM : IMAGES_PER_ZIP = 2000 := rfl
  have hB : BATCH_SIZE = 4 := rfl
  obtain ⟨st', heq, hinv⟩ := genLoop_ok rows hq rows.length 0 ⟨[], [], [], []⟩
    (by omega) (loopInv_init rows)
  rw [List.drop_zero] at heq
  rw [generateImages, if_neg (by simp [hne]), heq]
  dsimp only
  have hE : exitIdx rows.length 0 = BATCH_SIZE * ((rows.length + 3) / 4) := by
    rw [exitIdx, hB]
    omega
  have hEn : rows.length ≤ exitIdx rows.length 0 := by
    rw [hE, hB]
    omega
  have hstable : ∀ z, windowArtsUpto rows (exitIdx rows.length 0) z =
      windowArts rows z :=
    fun z => windowArtsUpto_stable rows (exitIdx rows.length 0) z hEn
  have hcstable : ∀ z, wcountUpto rows (exitIdx rows.length 0) z =
      wcount rows z := by
    intro z
    rw [wcountUpto, wcount, hstable z]
  obtain ⟨hfe, _⟩ := finalFold (List.range st'.zipFiles.length) st'
  have hfp := finalFold_progress (List.range st'.zipFiles.length) st'
  have hdone : finalFlush st' = (List.range st'.zipFiles.length).foldl
      finalFlushStep st' := rfl
  have hcap : ∀ z, wcount rows z ≤ IMAGES_PER_ZIP := by
    intro z
    have := wcountUpto_cap rows rows.length z
    rw [wcountUpto] at this
    rw [wcount, windowArts]
    exact this
  have hopen : ∀ z, (slotGet st' z).isSome = true ↔
      (0 < wcount rows z ∧ wcount rows z < IMAGES_PER_ZIP) := by
    intro z
    rw [hinv.slot z, hcstable z]
    by_cases h0 : wcount rows z = 0
    · rw [if_pos (Or.inl h0)]
      simp [h0]
    · by_cases hMM : wcount rows z = IMAGES_PER_ZIP
      · rw [if_pos (Or.inr hMM)]
        simp [hMM]
      · rw [if_neg (by tauto)]
        simp only [Option.isSome_some, true_iff]
        have := hcap z
        omega
  congr 1
  · -- emitted archives
    rw [hdone, hfe, hinv.emit]
    have hfilter1 : (List.range (numWindows rows.length)).filter
          (fun z => decide (wcountUpto rows (exitIdx rows.length 0) z =
            IMAGES_PER_ZIP)) =
        (List.range (numWindows rows.length)).filter
          (fun z => decide (wcount rows z = IMAGES_PER_ZIP)) := by
      apply List.filter_congr
      intro z _
      rw [hcstable z]
    have hpred : ∀ z, (slotGet st' z).isSome =
        decide (0 < wcount rows z ∧ wcount rows z < IMAGES_PER_ZIP) := by
      intro z
      rcases hh : decide (0 < wcount rows z ∧ wcount rows z < IMAGES_PER_ZIP)
        with _ | _
      · rw [decide_eq_false_iff_not] at hh
        rcases hss : (slotGet st' z).isSome with _ | _
        · rfl
        · exact absurd ((hopen z).mp hss) hh
      · rw [decide_eq_true_eq] at hh
        exact (hopen z).mpr hh
    have hfilter2 : (List.range st'.zipFiles.length).filter
          (fun z => (slotGet st' z).isSome) =
        (List.range (numWindows rows.length)).filter
          (fun z => decide (0 < wcount rows z ∧
            wcount rows z < IMAGES_PER_ZIP)) := by
      have hstep : (List.range st'.zipFiles.length).filter
            (fun z => (slotGet st' z).isSome) =
          (List.range st'.zipFiles.length).filter
            (fun z => decide (0 < wcount rows z ∧
              wcount rows z < IMAGES_PER_ZIP)) := by
        apply List.filter_congr
        intro z _
        rw [hpred z]
      rw [hstep]
      have hb1 : ∀ z, decide (0 < wcount rows z ∧
          wcount rows z < IMAGES_PER_ZIP) = true → z < st'.zipFiles.length := by
        intro z hz
        rw [decide_eq_true_eq] at hz
        by_contra hge
        have h0 := hinv.len z (by omega)
        rw [hcstable z] at h0
        omega
      have hb2 : ∀ z, decide (0 < wcount rows z ∧
          wcount rows z < IMAGES_PER_ZIP) = true →
          z < numWindows rows.length := by
        intro z hz
        rw [decide_eq_true_eq] at hz
        apply wcountUpto_pos_lt_numWindows rows rows.length z
        rw [wcountUpto]
        rw [wcount, windowArts] at hz
        omega
      rcases le_total st'.zipFiles.length (numWindows rows.length) with hle | hle
      · rw [filter_range_congr _ hb1 hle]
      · rw [filter_range_congr _ hb2 hle]
    have hmap2 : ((List.range (numWindows rows.length)).filter
          (fun z => decide (0 < wcount rows z ∧
            wcount rows z < IMAGES_PER_ZIP))).map
          (fun z => (z, (slotGet st' z).getD [])) =
        ((List.range (numWindows rows.length)).filter
          (fun z => decide (0 < wcount rows z ∧
            wcount rows z < IMAGES_PER_ZIP))).map
          (fun z => (z, windowZip rows z)) := by
      apply List.map_congr_left
      intro z hzf
      rw [List.mem_filter, decide_eq_true_eq] at hzf
      obtain ⟨_, h0, hMM⟩ := hzf
      rw [hinv.slot z, hcstable z, if_neg (by omega), Option.getD_some]
      rw [windowZipUpto, hstable z]
      rfl
    rw [hfilter1, hfilter2, hmap2, genSpecEmitted]
  · -- progress counters
    rw [hdone, hfp, hinv.prog, genSpecIdx, hE, hB]
    have hdiv : 4 * ((rows.length + 3) / 4) / 4 = (rows.length + 3) / 4 := by
      omega
    rw [hdiv, show (rows.length + 4 - 1) / 4 = (rows.length + 3) / 4 by omega]

/-- A batch containing a QR-encode rejection is eventually reached, and
the rejection escapes the loop. -/
theorem genLoop_error (rows : List Row) :
    ∀ (d i : Nat) (st : GenState), rows.length - i ≤ d →
      (∃ r ∈ rows.enum.drop i, r.2.2 = RowOutcome.qrFail) →
      genLoop (chunks4 (rows.enum.drop i)) i st = Except.error () := by
  have hB : BATCH_SIZE = 4 := rfl
  intro d
  induction d with
  | zero =>
    intro i st hle hex
    obtain ⟨r, hr, _⟩ := hex
    have hdrop : rows.enum.drop i = [] := by
      apply List.drop_eq_nil_of_le
      rw [List.enum_length]
      omega
    rw [hdrop] at hr
    exact absurd hr (List.not_mem_nil r)
  | succ d ih =>
    intro i st hle hex
    obtain ⟨r, hr, hrq⟩ := hex
    have hne : rows.enum.drop i ≠ [] := by
      intro hc
      rw [hc] at hr
      exact List.not_mem_nil r hr
    have hlt : i < rows.length := by
      by_contra hge
      have hdrop : rows.enum.drop i = [] := by
        apply List.drop_eq_nil_of_le
        rw [List.enum_length]
        omega
      exact hne hdrop
    rw [chunks4_cons _ hne]
    simp only [genLoop]
    by_cases hb : ((rows.enum.drop i).take 4).any
        (fun r => r.2.2 = RowOutcome.qrFail) = true
    · rw [if_pos hb]
    · rw [if_neg hb]
      have hrest : r ∈ (rows.enum.drop i).drop 4 := by
        have hsplit := List.take_append_drop 4 (rows.enum.drop i)
        rw [← hsplit] at hr
        rcases List.mem_append.mp hr with hl | hl
        · exact absurd (List.any_eq_true.mpr ⟨r, hl, by simp [hrq]⟩) hb
        · exact hl
      have hdd : (rows.enum.drop i).drop 4 = rows.enum.drop (i + BATCH_SIZE) := by
        rw [List.drop_drop]
        congr 1
      rw [hdd]
      rw [hdd] at hrest
      exact ih (i + BATCH_SIZE) _ (by rw [hB]; omega) ⟨r, hrest, hrq⟩

/-- C3 counterexample: a single row whose QR encode rejects makes the whole
run abort (the rejection of the batch's Promise.all escapes
generateImages); the second, perfectly fine row is never processed and no
archive is produced — nothing is caught or logged. -/
theorem qr_failure_aborts_run :
    generateImages true
      [("a".toList, RowOutcome.qrFail), ("b".toList, RowOutcome.ok)] =
      GenResult.aborted := by decide

/-- C3 as amended: only FatalInput (missing background or empty row list)
stops the run before processing, and a null blob from the JPEG encoder
merely omits that row (silently, with no log) while the other rows and
batches continue; but a QR-encode failure in any row is not caught — it
aborts the entire run, and the run aborts exactly when some row's QR
encode fails. -/
theorem generateImages_failure_policy (rows : List Row) (hne : rows ≠ []) :
    (generateImages true rows = GenResult.aborted ↔
      ∃ r ∈ rows, r.2 = RowOutcome.qrFail) ∧
    ((∀ r ∈ rows, r.2 ≠ RowOutcome.qrFail) →
      generateImages true rows =
        GenResult.done (genSpecEmitted rows) (genSpecIdx rows.length)) ∧
    generateImages true ([] : List Row) = GenResult.fatalInput ∧
    (∀ rows2 : List Row, generateImages false rows2 = GenResult.fatalInput) := by
  refine ⟨⟨?_, ?_⟩, ?_, by decide, ?_⟩
  · intro hab
    by_contra hno
    push_neg at hno
    rw [generateImages_characterization rows hne hno] at hab
    exact GenResult.noConfusion hab
  · rintro ⟨r, hr, hrq⟩
    obtain ⟨n, hn⟩ := List.mem_iff_getElem?.mp hr
    have henum : (n, r) ∈ rows.enum.drop 0 := by
      rw [List.drop_zero, List.mem_iff_getElem?]
      exact ⟨n, by rw [List.getElem?_enum, hn]; rfl⟩
    have herr := genLoop_error rows rows.length 0 ⟨[], [], [], []⟩
      (by omega) ⟨(n, r), henum, hrq⟩
    rw [List.drop_zero] at herr
    rw [generateImages, if_neg (by simp [hne]), herr]
  · exact generateImages_characterization rows hne
  · intro rows2
    rw [generateImages, if_pos (Or.inl rfl)]

/-- Witness for the amended C3: a one-row run with a fine row completes
with one emitted shard, an empty run is fatal input, and adding a
QR-failing row to a run aborts it. -/
theorem generateImages_failure_policy_witness :
    generateImages true [("w".toList, RowOutcome.ok)] =
      GenResult.done (genSpecEmitted [("w".toList, RowOutcome.ok)])
        (genSpecIdx 1) ∧
    generateImages true [("w".toList, RowOutcome.qrFail)] =
      GenResult.aborted := by
  constructor
  · exact (generateImages_failure_policy [("w".toList, RowOutcome.ok)]
      (by decide)).2.1 (by decide)
  · exact (generateImages_failure_policy [("w".toList, RowOutcome.qrFail)]
      (by decide)).1.2 ⟨("w".toList, RowOutcome.qrFail),
        List.mem_cons_self _ _, rfl⟩

/-- C8 counterexample: five valid rows are processed in two batches; the
published percentages are 0, 80 and 160.  The final published value is the
fraction 1.6 — outside [0,1] and not equal to rowsCompleted/totalRows = 1 —
because the loop publishes ((i + 4) / totalRows) * 100 even when the final
batch is partial. -/
theorem progress_exceeds_one :
    progressIdxOf (generateImages true
      [([], RowOutcome.ok), ([], RowOutcome.ok), ([], RowOutcome.ok),
       ([], RowOutcome.ok), ([], RowOutcome.ok)]) = [0, 4] ∧
    progressValues 5 [0, 4] = [0, 80, 160] ∧
    ¬((160 : ℚ) / 100 ≤ 1) := by
  refine ⟨by decide, ?_, by norm_num⟩
  rw [progressValues]
  norm_num [BATCH_SIZE]

/-- C8 as amended: after each batch starting at loop counter i the run
publishes ((i + 4) / totalRows) * 100.  The sequence of published values
(starting from the initial 0) is monotonically non-decreasing and
non-negative; the value equals rowsCompleted/totalRows while batches are
full, every value before the final batch is strictly below 100 percent,
and the final published value is at least 100 percent — strictly more when
the row count is not a multiple of 4 (so the claim's bound of 1.0 fails
exactly on a final partial batch). -/
theorem generateImages_progress (rows : List Row) (hne : rows ≠ [])
    (hq : ∀ r ∈ rows, r.2 ≠ RowOutcome.qrFail) :
    progressIdxOf (generateImages true rows) = genSpecIdx rows.length ∧
    progressValues rows.length (genSpecIdx rows.length) =
      0 :: (List.range ((rows.length + 3) / 4)).map
        (fun k : ℕ => (4 * (k : ℚ) + 4) / (rows.length : ℚ) * 100) ∧
    List.Chain' (· ≤ ·)
      (progressValues rows.length (genSpecIdx rows.length)) ∧
    (∀ q ∈ progressValues rows.length (genSpecIdx rows.length), 0 ≤ q) ∧
    (∀ k : ℕ, k + 1 < (rows.length + 3) / 4 →
      (4 * (k : ℚ) + 4) / (rows.length : ℚ) * 100 < 100) ∧
    100 ≤ ((4 * ((rows.length + 3) / 4) : ℕ) : ℚ) / (rows.length : ℚ) * 100 := by
  have hB : BATCH_SIZE = 4 := rfl
  have hn1 : 1 ≤ rows.length := by
    rcases rows with _ | ⟨r, rest⟩
    · exact absurd rfl hne
    · simp
  have hn0 : (0 : ℚ) < (rows.length : ℚ) := by
    exact_mod_cast hn1
  have hval : progressValues rows.length (genSpecIdx rows.length) =
      0 :: (List.range ((rows.length + 3) / 4)).map
        (fun k : ℕ => (4 * (k : ℚ) + 4) / (rows.length : ℚ) * 100) := by
    rw [progressValues, genSpecIdx, List.map_map]
    rw [show (rows.length + BATCH_SIZE - 1) / BATCH_SIZE =
      (rows.length + 3) / 4 from by rw [hB]; omega]
    congr 1
    apply List.map_congr_left
    intro k _
    show ((((BATCH_SIZE * k : ℕ)) : ℚ) + (BATCH_SIZE : ℕ)) /
      (rows.length : ℚ) * 100 = _
    rw [hB]
    push_cast
    ring
  refine ⟨?_, hval, ?_, ?_, ?_, ?_⟩
  · rw [generateImages_characterization rows hne hq]
    rfl
  · rw [hval]
    apply List.Pairwise.chain'
    rw [List.pairwise_cons]
    constructor
    · intro b hb
      rw [List.mem_map] at hb
      obtain ⟨k, _, rfl⟩ := hb
      positivity
    · rw [List.pairwise_map]
      apply List.Pairwise.imp ?_ (List.pairwise_lt_range _)
      intro a b hab
      have hab2 : (a : ℚ) ≤ (b : ℚ) := by
        exact_mod_cast hab.le
      gcongr
  · intro q hqv
    rw [hval] at hqv
    rcases List.mem_cons.mp hqv with h1 | h1
    · rw [h1]
    · rw [List.mem_map] at h1
      obtain ⟨k, _, rfl⟩ := h1
      positivity
  · intro k hk
    have hnat : 4 * k + 4 < rows.length := by omega
    rw [div_mul_eq_mul_div, div_lt_iff hn0]
    have : ((4 * k + 4 : ℕ) : ℚ) < (rows.length : ℚ) := by
      exact_mod_cast hnat
    push_cast at this
    nlinarith
  · have hnat : rows.length ≤ 4 * ((rows.length + 3) / 4) := by omega
    rw [div_mul_eq_mul_div, le_div_iff hn0]
    have : (rows.length : ℚ) ≤ ((4 * ((rows.length + 3) / 4) : ℕ) : ℚ) := by
      exact_mod_cast hnat
    nlinarith

/-- Witness for the amended C8: an eight-row run (two full batches)
publishes counters 0 and 4 and the percentages 0, 50, 100. -/
theorem generateImages_progress_witness :
    progressIdxOf (generateImages true
      [([], RowOutcome.ok), ([], RowOutcome.ok), ([], RowOutcome.ok),
       ([], RowOutcome.ok), ([], RowOutcome.ok), ([], RowOutcome.ok),
       ([], RowOutcome.ok), ([], RowOutcome.ok)]) = genSpecIdx 8 := by
  exact (generateImages_progress
    [([], RowOutcome.ok), ([], RowOutcome.ok), ([], RowOutcome.ok),
     ([], RowOutcome.ok), ([], RowOutcome.ok), ([], RowOutcome.ok),
     ([], RowOutcome.ok), ([], RowOutcome.ok)]
    (by decide) (by decide)).1

/-! Entry accounting for C9: JSZip's file() replaces an existing entry of
the same name, so an archive holds one entry per distinct entry name of
the rows inserted into it. -/

/-- The archive entry name an artifact row produces. -/
def artName (r : Nat × Row) : List Char := entryName r.2.1 r.1

/-- Records a name into a first-occurrence name list. -/
def addName (ns : List (List Char)) (n : List Char) : List (List Char) :=
  if n ∈ ns then ns else ns ++ [n]

def nameFold (ns : List (List Char)) (ms : List (List Char)) : List (List Char) :=
  ms.foldl addName ns

theorem zipFile_fst_mem (z : Zip) (name : List Char) (v : Nat)
    (h : name ∈ z.map Prod.fst) :
    (zipFile z name v).map Prod.fst = z.map Prod.fst := by
  have hc : z.any (fun e => decide (e.1 = name)) = true := by
    obtain ⟨e, he, hfst⟩ := List.mem_map.mp h
    exact List.any_eq_true.mpr ⟨e, he, by simp [hfst]⟩
  rw [zipFile, if_pos hc, List.map_map]
  apply List.map_congr_left
  intro a _
  show (if a.1 = name then (name, v) else a).1 = a.1
  by_cases hcc : a.1 = name
  · rw [if_pos hcc, hcc]
  · rw [if_neg hcc]

theorem zipFile_fst_not_mem (z : Zip) (name : List Char) (v : Nat)
    (h : name ∉ z.map Prod.fst) :
    (zipFile z name v).map Prod.fst = z.map Prod.fst ++ [name] := by
  have hc : ¬ (z.any (fun e => decide (e.1 = name)) = true) := by
    rw [List.any_eq_true]
    rintro ⟨e, he, hfst⟩
    exact h (List.mem_map.mpr ⟨e, he, by simpa using hfst⟩)
  rw [zipFile, if_neg hc]
  simp

theorem zipFold_fst (l : List (Nat × Row)) : ∀ (acc : Zip),
    ((l.foldl (fun acc r => zipFile acc (entryName r.2.1 r.1) r.1) acc).map
      Prod.fst) = nameFold (acc.map Prod.fst) (l.map artName) := by
  induction l with
  | nil => intro acc; rfl
  | cons r t ih =>
    intro acc
    rw [List.foldl_cons, ih, List.map_cons]
    have hstep : (zipFile acc (entryName r.2.1 r.1) r.1).map Prod.fst
        = addName (acc.map Prod.fst) (artName r) := by
      by_cases h : entryName r.2.1 r.1 ∈ acc.map Prod.fst
      · rw [zipFile_fst_mem _ _ _ h]
        simp only [artName, addName]
        rw [if_pos h]
      · rw [zipFile_fst_not_mem _ _ _ h]
        simp only [artName, addName]
        rw [if_neg h]
    rw [hstep]
    rfl

theorem addName_nodup (ns : List (List Char)) (n : List Char) (h : ns.Nodup) :
    (addName ns n).Nodup := by
  rw [addName]
  by_cases hm : n ∈ ns
  · rw [if_pos hm]; exact h
  · rw [if_neg hm]
    exact List.Nodup.append h (List.nodup_singleton n)
      (fun a ha hb => hm ((List.mem_singleton.mp hb) ▸ ha))

theorem addName_toFinset (ns : List (List Char)) (n : List Char) :
    (addName ns n).toFinset = insert n ns.toFinset := by
  rw [addName]
  by_cases hm : n ∈ ns
  · rw [if_pos hm, Finset.insert_eq_self.mpr (List.mem_toFinset.mpr hm)]
  · rw [if_neg hm, List.toFinset_append]
    simp [Finset.insert_eq, Finset.union_comm]

theorem nameFold_nodup (ms : List (List Char)) : ∀ ns : List (List Char),
    ns.Nodup → (nameFold ns ms).Nodup := by
  induction ms with
  | nil => intro ns h; exact h
  | cons m t ih => intro ns h; exact ih (addName ns m) (addName_nodup ns m h)

theorem nameFold_toFinset (ms : List (List Char)) : ∀ ns : List (List Char),
    (nameFold ns ms).toFinset = ns.toFinset ∪ ms.toFinset := by
  induction ms with
  | nil => intro ns; simp [nameFold]
  | cons m t ih =>
    intro ns
    have h1 : nameFold ns (m :: t) = nameFold (addName ns m) t := rfl
    rw [h1, ih, addName_toFinset, List.toFinset_cons, Finset.insert_union,
      Finset.union_insert]

theorem zipOfArts_fst (l : List (Nat × Row)) :
    (zipOfArts l).map Prod.fst = nameFold [] (l.map artName) := by
  rw [zipOfArts]
  exact zipFold_fst l []

/-- An archive built from artifact rows has one entry per distinct entry
name among them. -/
theorem zipOfArts_length (l : List (Nat × Row)) :
    (zipOfArts l).length = (l.map artName).toFinset.card := by
  have h1 : (zipOfArts l).length = ((zipOfArts l).map Prod.fst).length :=
    (List.length_map _ _).symm
  have h2 := nameFold_nodup (l.map artName) [] List.nodup_nil
  rw [h1, zipOfArts_fst, ← List.toFinset_card_of_nodup h2, nameFold_toFinset]
  simp

theorem zipOfArts_length_le (l : List (Nat × Row)) :
    (zipOfArts l).length ≤ l.length := by
  rw [zipOfArts_length]
  calc (l.map artName).toFinset.card ≤ (l.map artName).length :=
        List.toFinset_card_le _
    _ = l.length := List.length_map _ _

theorem zipOfArts_length_of_nodup (l : List (Nat × Row))
    (h : (l.map artName).Nodup) : (zipOfArts l).length = l.length := by
  rw [zipOfArts_length, List.toFinset_card_of_nodup h, List.length_map]

/-! Sum bookkeeping used to relate per-window counts to the total number of
ok rows. -/

theorem sum_map_add {β : Type} (l : List β) (f g : β → Nat) :
    (l.map (fun z => f z + g z)).sum = (l.map f).sum + (l.map g).sum := by
  induction l with
  | nil => rfl
  | cons x t ih =>
    simp only [List.map_cons, List.sum_cons, ih]
    omega

theorem sum_indicator_of_ge (k : Nat) : ∀ m : Nat, m ≤ k →
    ((List.range m).map (fun z => if k = z then 1 else 0)).sum = 0 := by
  intro m
  induction m with
  | zero => intro _; rfl
  | succ m ih =>
    intro hk
    rw [List.range_succ, List.map_append, List.sum_append, ih (by omega),
      List.map_singleton, List.sum_singleton, if_neg (by omega)]

theorem sum_indicator (k : Nat) : ∀ m : Nat, k < m →
    ((List.range m).map (fun z => if k = z then 1 else 0)).sum = 1 := by
  intro m
  induction m with
  | zero => omega
  | succ m ih =>
    intro hk
    rw [List.range_succ, List.map_append, List.sum_append,
      List.map_singleton, List.sum_singleton]
    by_cases h : k < m
    · rw [ih h, if_neg (by omega)]
    · rw [sum_indicator_of_ge k m (by omega), if_pos (by omega)]

theorem sum_filter_lengths {α : Type} (f : α → Nat) (l : List α) : ∀ m : Nat,
    (∀ x ∈ l, f x < m) →
    ((List.range m).map (fun z => (l.filter (fun x => f x = z)).length)).sum
      = l.length := by
  induction l with
  | nil =>
    intro m _
    simp only [List.filter_nil, List.length_nil]
    apply List.sum_eq_zero
    intro y hy
    obtain ⟨z, _, rfl⟩ := List.mem_map.mp hy
    rfl
  | cons x t ih =>
    intro m hm
    have hfx : f x < m := hm x (List.mem_cons_self x t)
    have hmt : ∀ y ∈ t, f y < m := fun y hy => hm y (List.mem_cons_of_mem x hy)
    have hsplit : (List.range m).map
        (fun z => ((x :: t).filter (fun y => f y = z)).length)
        = (List.range m).map (fun z =>
            (if f x = z then 1 else 0) + (t.filter (fun y => f y = z)).length) := by
      apply List.map_congr_left
      intro z _
      by_cases h : f x = z
      · rw [List.filter_cons, if_pos (decide_eq_true h), if_pos h,
          List.length_cons]
        omega
      · rw [List.filter_cons, if_neg (by simp [h]), if_neg h]
        omega
    rw [hsplit, sum_map_add, sum_indicator (f x) m hfx, ih m hmt, List.length_cons]
    omega

theorem sum_map_split {β : Type} (p : β → Bool) (f : β → Nat) (l : List β) :
    (l.map f).sum = ((l.filter p).map f).sum
      + ((l.filter (fun x => ! p x)).map f).sum := by
  induction l with
  | nil => rfl
  | cons x t ih =>
    by_cases h : p x = true
    · rw [List.map_cons, List.sum_cons, List.filter_cons, if_pos h,
        List.filter_cons, if_neg (by simp [h]), List.map_cons, List.sum_cons, ih]
      omega
    · have hf : p x = false := by
        cases hv : p x
        · rfl
        · exact absurd hv h
      rw [List.map_cons, List.sum_cons, List.filter_cons, if_neg h,
        List.filter_cons, if_pos (by simp [hf]), List.map_cons, List.sum_cons, ih]
      omega

theorem sum_map_zero_of {β : Type} (l : List β) (f : β → Nat)
    (h : ∀ x ∈ l, f x = 0) : (l.map f).sum = 0 := by
  apply List.sum_eq_zero
  intro y hy
  obtain ⟨x, hx, rfl⟩ := List.mem_map.mp hy
  exact h x hx

/-- A window's artifact rows are the ok rows whose index lands in the
window. -/
theorem windowArts_alt (rows : List Row) (z : Nat) :
    windowArts rows z = (rows.enum.filter
        (fun r => r.2.2 = RowOutcome.ok)).filter
      (fun r => r.1 / IMAGES_PER_ZIP = z) := by
  rw [windowArts, windowArtsUpto]
  have h1 : rows.enum.take rows.length = rows.enum := by
    rw [← List.enum_length, List.take_length]
  rw [h1, List.filter_filter]
  apply List.filter_congr
  intro r _
  by_cases hA : r.2.2 = RowOutcome.ok <;>
    by_cases hB : r.1 / IMAGES_PER_ZIP = z <;>
      simp [hA, hB]

/-- Summing the window counts over all windows counts every ok row exactly
once. -/
theorem wcount_sum (rows : List Row) :
    ((List.range (numWindows rows.length)).map (fun z => wcount rows z)).sum
      = (rows.filter (fun r => r.2 = RowOutcome.ok)).length := by
  have hcongr : (List.range (numWindows rows.length)).map
        (fun z => wcount rows z)
      = (List.range (numWindows rows.length)).map (fun z =>
          ((rows.enum.filter (fun r => r.2.2 = RowOutcome.ok)).filter
            (fun r => r.1 / IMAGES_PER_ZIP = z)).length) := by
    apply List.map_congr_left
    intro z _
    rw [wcount, windowArts_alt]
  have hbound : ∀ r ∈ rows.enum.filter (fun r => r.2.2 = RowOutcome.ok),
      r.1 / IMAGES_PER_ZIP < numWindows rows.length := by
    intro r hr
    have h3 : r.1 < rows.length :=
      List.fst_lt_of_mem_enum (List.mem_of_mem_filter hr)
    rw [numWindows]
    have hI : IMAGES_PER_ZIP = 2000 := rfl
    rw [hI]
    omega
  have hmain := sum_filter_lengths (fun r : Nat × Row => r.1 / IMAGES_PER_ZIP)
    (rows.enum.filter (fun r => r.2.2 = RowOutcome.ok))
    (numWindows rows.length) hbound
  have hlen : (rows.filter (fun r => r.2 = RowOutcome.ok)).length
      = (rows.enum.filter (fun r => r.2.2 = RowOutcome.ok)).length := by
    conv_lhs => rw [← List.enum_map_snd rows]
    rw [List.filter_map, List.length_map]
    congr 1
  rw [hcongr, hlen]
  exact hmain

/-- C9 counterexample: two valid rows whose links resolve to the same
filename "42" yield a single archive entry (JSZip file() overwrites), so
the total entry count 1 differs from the 2 rows that produced a valid
artifact, with no logged skip. -/
theorem colliding_names_lose_entries :
    (([("a?id=42".toList, RowOutcome.ok), ("b?id=42".toList, RowOutcome.ok)] :
        List Row).filter (fun r => r.2 = RowOutcome.ok)).length = 2 ∧
    ((emittedOf (generateImages true
        [("a?id=42".toList, RowOutcome.ok),
         ("b?id=42".toList, RowOutcome.ok)])).map
      (fun p => p.2.length)).sum = 1 := by
  constructor
  · rfl
  · decide

/-- C9 as amended: each emitted shard holds one entry per distinct entry
name among its window's ok rows — a later row whose resolved filename
collides with an earlier one in the same shard silently overwrites it
rather than contributing a distinct entry.  Hence every shard's size is at
most its window's ok-row count, and the total entry count across all
emitted shards equals the number of rows that produced a valid artifact
exactly when each window's entry names are distinct. -/
theorem generateImages_entry_conservation (rows : List Row) (hne : rows ≠ [])
    (hq : ∀ r ∈ rows, r.2 ≠ RowOutcome.qrFail) :
    emittedOf (generateImages true rows) = genSpecEmitted rows ∧
    (∀ p ∈ genSpecEmitted rows,
      p.2.length = ((windowArts rows p.1).map artName).toFinset.card) ∧
    (∀ p ∈ genSpecEmitted rows, p.2.length ≤ wcount rows p.1) ∧
    ((∀ z, z < numWindows rows.length →
        ((windowArts rows z).map artName).Nodup) →
      ((genSpecEmitted rows).map (fun p => p.2.length)).sum
        = (rows.filter (fun r => r.2 = RowOutcome.ok)).length) := by
  refine ⟨?_, ?_, ?_, ?_⟩
  · rw [generateImages_characterization rows hne hq, emittedOf]
  · intro p hp
    rw [genSpecEmitted] at hp
    rcases List.mem_append.mp hp with h1 | h1 <;>
    · obtain ⟨z, _, rfl⟩ := List.mem_map.mp h1
      exact zipOfArts_length _
  · intro p hp
    rw [genSpecEmitted] at hp
    rcases List.mem_append.mp hp with h1 | h1 <;>
    · obtain ⟨z, _, rfl⟩ := List.mem_map.mp h1
      exact zipOfArts_length_le _
  · intro hnd
    have hzip : ∀ z, z < numWindows rows.length →
        (windowZip rows z).length = wcount rows z := by
      intro z hz
      rw [windowZip, zipOfArts_length_of_nodup _ (hnd z hz), wcount]
    have hF : (((List.range (numWindows rows.length)).filter
          (fun z => wcount rows z = IMAGES_PER_ZIP)).map
        (fun z => (windowZip rows z).length))
        = ((List.range (numWindows rows.length)).filter
          (fun z => wcount rows z = IMAGES_PER_ZIP)).map
            (fun z => wcount rows z) := by
      apply List.map_congr_left
      intro z hz
      exact hzip z (List.mem_range.mp (List.mem_of_mem_filter hz))
    have hP : (((List.range (numWindows rows.length)).filter
          (fun z => 0 < wcount rows z ∧ wcount rows z < IMAGES_PER_ZIP)).map
        (fun z => (windowZip rows z).length))
        = ((List.range (numWindows rows.length)).filter
          (fun z => 0 < wcount rows z ∧ wcount rows z < IMAGES_PER_ZIP)).map
            (fun z => wcount rows z) := by
      apply List.map_congr_left
      intro z hz
      exact hzip z (List.mem_range.mp (List.mem_of_mem_filter hz))
    have hcap : ∀ z, wcount rows z ≤ IMAGES_PER_ZIP := fun z =>
      wcountUpto_cap rows rows.length z
    have hsplit1 := sum_map_split
      (fun z => decide (wcount rows z = IMAGES_PER_ZIP))
      (fun z => wcount rows z) (List.range (numWindows rows.length))
    have hsplit2 := sum_map_split
      (fun z => decide (0 < wcount rows z ∧ wcount rows z < IMAGES_PER_ZIP))
      (fun z => wcount rows z)
      ((List.range (numWindows rows.length)).filter
        (fun x => ! decide (wcount rows x = IMAGES_PER_ZIP)))
    have hPP : ((List.range (numWindows rows.length)).filter
          (fun x => ! decide (wcount rows x = IMAGES_PER_ZIP))).filter
        (fun z => decide (0 < wcount rows z ∧ wcount rows z < IMAGES_PER_ZIP))
        = (List.range (numWindows rows.length)).filter
          (fun z => 0 < wcount rows z ∧ wcount rows z < IMAGES_PER_ZIP) := by
      rw [List.filter_filter]
      apply List.filter_congr
      intro z _
      by_cases hw : 0 < wcount rows z ∧ wcount rows z < IMAGES_PER_ZIP
      · rw [decide_eq_true hw,
          decide_eq_false (show ¬ wcount rows z = IMAGES_PER_ZIP by omega)]
        rfl
      · rw [decide_eq_false hw]
        rfl
    have hzero : ((((List.range (numWindows rows.length)).filter
          (fun x => ! decide (wcount rows x = IMAGES_PER_ZIP))).filter
        (fun x => ! decide (0 < wcount rows x ∧
          wcount rows x < IMAGES_PER_ZIP))).map
          (fun z => wcount rows z)).sum = 0 := by
      apply sum_map_zero_of
      intro z hz
      have h1 := List.of_mem_filter hz
      have h2 := List.of_mem_filter (List.mem_of_mem_filter hz)
      simp only [Bool.not_eq_true', decide_eq_false_iff_not] at h1 h2
      have := hcap z
      omega
    have htot := wcount_sum rows
    rw [genSpecEmitted, List.map_append, List.sum_append, List.map_map,
      List.map_map]
    have hcompF : (((List.range (numWindows rows.length)).filter
          (fun z => wcount rows z = IMAGES_PER_ZIP)).map
        ((fun p : Nat × Zip => p.2.length) ∘
          (fun z => (z, windowZip rows z))))
        = ((List.range (numWindows rows.length)).filter
          (fun z => wcount rows z = IMAGES_PER_ZIP)).map
            (fun z => (windowZip rows z).length) := rfl
    have hcompP : (((List.range (numWindows rows.length)).filter
          (fun z => 0 < wcount rows z ∧ wcount rows z < IMAGES_PER_ZIP)).map
        ((fun p : Nat × Zip => p.2.length) ∘
          (fun z => (z, windowZip rows z))))
        = ((List.range (numWindows rows.length)).filter
          (fun z => 0 < wcount rows z ∧ wcount rows z < IMAGES_PER_ZIP)).map
            (fun z => (windowZip rows z).length) := rfl
    rw [hcompF, hcompP, hF, hP]
    rw [hPP] at hsplit2
    omega

/-! Sharding facts for C4: shard assignment is by row index, a shard's
entry values, per-window sizes under all-ok rows, and the shape of the
emitted list. -/

theorem mem_zipFile {z : Zip} {name : List Char} {v : Nat}
    {e : List Char × Nat} (h : e ∈ zipFile z name v) :
    e ∈ z ∨ e = (name, v) := by
  rw [zipFile] at h
  by_cases hc : z.any (fun e => decide (e.1 = name)) = true
  · rw [if_pos hc] at h
    obtain ⟨a, ha, hae⟩ := List.mem_map.mp h
    by_cases h2 : a.1 = name
    · right; rw [if_pos h2] at hae; exact hae.symm
    · left; rw [if_neg h2] at hae; exact hae ▸ ha
  · rw [if_neg hc] at h
    rcases List.mem_append.mp h with h1 | h1
    · left; exact h1
    · right; exact List.mem_singleton.mp h1

theorem mem_zipOfArts (l : List (Nat × Row)) : ∀ e ∈ zipOfArts l,
    ∃ r ∈ l, e = (artName r, r.1) := by
  suffices h : ∀ (acc : Zip), ∀ e ∈ l.foldl
      (fun acc r => zipFile acc (entryName r.2.1 r.1) r.1) acc,
      e ∈ acc ∨ ∃ r ∈ l, e = (artName r, r.1) by
    intro e he
    rcases h [] e he with h1 | h1
    · exact absurd h1 (List.not_mem_nil e)
    · exact h1
  induction l with
  | nil => intro acc e he; left; exact he
  | cons r t ih =>
    intro acc e he
    rw [List.foldl_cons] at he
    rcases ih (zipFile acc (entryName r.2.1 r.1) r.1) e he with h1 | h1
    · rcases mem_zipFile h1 with h2 | h2
      · left; exact h2
      · right
        refine ⟨r, List.mem_cons_self r t, ?_⟩
        rw [h2]
        rfl
    · right
      obtain ⟨r2, hr2, he2⟩ := h1
      exact ⟨r2, List.mem_cons_of_mem r hr2, he2⟩

theorem mem_genSpecEmitted {rows : List Row} {p : Nat × Zip}
    (h : p ∈ genSpecEmitted rows) :
    p.1 < numWindows rows.length ∧ p.2 = windowZip rows p.1 := by
  rw [genSpecEmitted] at h
  rcases List.mem_append.mp h with h1 | h1
  · obtain ⟨z, hz, rfl⟩ := List.mem_map.mp h1
    exact ⟨List.mem_range.mp (List.mem_of_mem_filter hz), rfl⟩
  · obtain ⟨z, hz, rfl⟩ := List.mem_map.mp h1
    exact ⟨List.mem_range.mp (List.mem_of_mem_filter hz), rfl⟩

/-- Counting the indices of a 2000-wide window inside 0..n-1. -/
theorem length_filter_div (z : Nat) : ∀ n : Nat,
    ((List.range n).filter (fun i => i / 2000 = z)).length
      = min 2000 (n - 2000 * z) := by
  intro n
  induction n with
  | zero => simp
  | succ n ih =>
    rw [List.range_succ, List.filter_append, List.length_append, ih,
      List.filter_cons, List.filter_nil]
    by_cases h : n / 2000 = z
    · rw [if_pos (decide_eq_true h), List.length_cons, List.length_nil]
      omega
    · rw [if_neg (by simp [h]), List.length_nil]
      omega

/-- When every row produces an artifact, window z holds
min 2000 (n - 2000 z) artifact rows. -/
theorem wcount_all_ok (rows : List Row)
    (hok : ∀ r ∈ rows, r.2 = RowOutcome.ok) (z : Nat) :
    wcount rows z = min IMAGES_PER_ZIP (rows.length - IMAGES_PER_ZIP * z) := by
  rw [wcount, windowArts_alt]
  have hself : rows.enum.filter (fun r => r.2.2 = RowOutcome.ok)
      = rows.enum := by
    apply List.filter_eq_self.mpr
    intro a ha
    have h2 : a.2 ∈ rows := by
      have h3 := List.mem_map_of_mem Prod.snd ha
      rwa [List.enum_map_snd] at h3
    exact decide_eq_true (hok a.2 h2)
  rw [hself]
  have hmap : ((List.range rows.length).filter
        (fun i => i / IMAGES_PER_ZIP = z))
      = (rows.enum.filter (fun r => r.1 / IMAGES_PER_ZIP = z)).map
          Prod.fst := by
    conv_lhs => rw [← List.enum_map_fst rows]
    rw [List.filter_map]
    rfl
  have hlen2 : (rows.enum.filter
        (fun r => r.1 / IMAGES_PER_ZIP = z)).length
      = ((List.range rows.length).filter
          (fun i => i / IMAGES_PER_ZIP = z)).length := by
    rw [hmap, List.length_map]
  rw [hlen2]
  have hI : IMAGES_PER_ZIP = 2000 := rfl
  simp only [hI]
  exact length_filter_div z rows.length

/-- With one full window and one partial window the emitted list is the
full shard then the partial shard. -/
theorem genSpecEmitted_two_windows (rows : List Row)
    (hW : numWindows rows.length = 2)
    (h0 : wcount rows 0 = IMAGES_PER_ZIP)
    (h1p : 0 < wcount rows 1) (h1l : wcount rows 1 < IMAGES_PER_ZIP) :
    genSpecEmitted rows
      = [(0, windowZip rows 0), (1, windowZip rows 1)] := by
  rw [genSpecEmitted, hW]
  have hr2 : List.range 2 = [0, 1] := rfl
  rw [hr2]
  have hf : ([0, 1].filter (fun z => wcount rows z = IMAGES_PER_ZIP))
      = [0] := by
    rw [List.filter_cons, if_pos (decide_eq_true h0), List.filter_cons,
      if_neg (by simp only [decide_eq_true_eq]; omega), List.filter_nil]
  have hp : ([0, 1].filter (fun z =>
      0 < wcount rows z ∧ wcount rows z < IMAGES_PER_ZIP)) = [1] := by
    rw [List.filter_cons, if_neg (by simp only [decide_eq_true_eq]; omega),
      List.filter_cons, if_pos (decide_eq_true ⟨h1p, h1l⟩), List.filter_nil]
  rw [hf, hp]
  rfl

/-- Witness for the amended C9: a single ok row yields total entry count
equal to its one valid artifact. -/
theorem generateImages_entry_conservation_witness :
    ((genSpecEmitted [("a?id=7".toList, RowOutcome.ok)]).map
      (fun p => p.2.length)).sum =
      (([("a?id=7".toList, RowOutcome.ok)] : List Row).filter
        (fun r => r.2 = RowOutcome.ok)).length :=
  (generateImages_entry_conservation [("a?id=7".toList, RowOutcome.ok)]
    (by decide) (by decide)).2.2.2 (by decide)

/-- A link whose query resolves to the name "42" for every row index. -/
theorem resolveFileName_a42 (i : Nat) :
    resolveFileName "a?id=42".toList i = "42".toList := by
  rw [resolveFileName]
  have h : rawName "a?id=42".toList = "42".toList := by decide
  rw [h]
  rfl

theorem artName_a42 (r : Nat × Row) (h : r.2.1 = "a?id=42".toList) :
    artName r = "42.jpg".toList := by
  rw [artName, entryName, h, resolveFileName_a42]
  rfl

/-- The counterexample input: 2500 valid rows that all resolve to the
same filename. -/
def cRows : List Row := List.replicate 2500 ("a?id=42".toList, RowOutcome.ok)

theorem cRows_ok : ∀ r ∈ cRows, r.2 = RowOutcome.ok := by
  intro r hr
  rw [List.eq_of_mem_replicate hr]

theorem cRows_wcount (z : Nat) :
    wcount cRows z = min 2000 (2500 - 2000 * z) := by
  rw [wcount_all_ok cRows cRows_ok z]
  have hlen : cRows.length = 2500 := by
    simp only [cRows, List.length_replicate]
  rw [hlen]
  rfl

theorem cRows_windowZip_len (z : Nat) (hz : 0 < wcount cRows z) :
    (windowZip cRows z).length = 1 := by
  rw [windowZip, zipOfArts_length]
  have h1 : ∀ r ∈ windowArts cRows z, artName r = "42.jpg".toList := by
    intro r hr
    obtain ⟨_, hget, _, _⟩ := mem_windowArtsUpto hr
    have hr2 : r.2 ∈ cRows := List.getElem?_mem hget
    have h3 := List.eq_of_mem_replicate hr2
    exact artName_a42 r (by rw [h3])
  rw [List.map_congr_left h1, List.map_const']
  have hzl : (windowArts cRows z).length ≠ 0 := by
    have h4 : wcount cRows z = (windowArts cRows z).length := rfl
    omega
  rw [List.toFinset_replicate_of_ne_zero hzl, Finset.card_singleton]

/-- C4 counterexample: 2500 valid rows (every row produces an artifact)
whose resolved filenames all coincide.  The run emits two shards, but
their entry counts are 1 and 1 — the non-final shard does not hold 2000
entries and the claimed scenario sizes 2000 and 500 fail — because the
capacity counter counts insertions by row index while colliding names
overwrite entries. -/
theorem shard_capacity_counterexample :
    (∀ r ∈ cRows, r.2 = RowOutcome.ok) ∧
    cRows.length = 2500 ∧
    (emittedOf (generateImages true cRows)).map
      (fun p => (p.1, p.2.length)) = [(0, 1), (1, 1)] := by
  refine ⟨cRows_ok, by simp only [cRows, List.length_replicate], ?_⟩
  have hlen : cRows.length = 2500 := by
    simp only [cRows, List.length_replicate]
  have hq : ∀ r ∈ cRows, r.2 ≠ RowOutcome.qrFail := by
    intro r hr
    rw [cRows_ok r hr]
    decide
  have hne : cRows ≠ [] := by
    intro h
    have h2 := congrArg List.length h
    rw [hlen, List.length_nil] at h2
    omega
  rw [generateImages_characterization cRows hne hq, emittedOf]
  have hW : numWindows cRows.length = 2 := by rw [hlen]; rfl
  have h0 : wcount cRows 0 = IMAGES_PER_ZIP := by
    rw [cRows_wcount 0]; decide
  have h1v : wcount cRows 1 = 500 := by
    rw [cRows_wcount 1]
    decide
  rw [genSpecEmitted_two_windows cRows hW h0 (by rw [h1v]; decide)
    (by rw [h1v]; decide)]
  have hz0 : (windowZip cRows 0).length = 1 :=
    cRows_windowZip_len 0 (by rw [h0]; decide)
  have hz1 : (windowZip cRows 1).length = 1 :=
    cRows_windowZip_len 1 (by rw [h1v]; decide)
  dsimp only [List.map_cons, List.map_nil]
  rw [hz0, hz1]

/-- C4 as amended: artifacts are assigned to shards by the floor of the
row index (not a count of produced artifacts) divided by 2000; when every
row produces an artifact and each window's resolved entry names are
pairwise distinct, shard z holds exactly min 2000 (n - 2000 z) entries
(so every non-final shard holds exactly 2000), every entry of shard z
stores a row index of window z, each shard is emitted exactly once (full
shards the moment their counter reaches capacity, the rest in the final
flush), and 2500 such rows yield exactly the shards 0 and 1 with sizes
2000 and 500. -/
theorem generateImages_sharding (rows : List Row) (hne : rows ≠ [])
    (hok : ∀ r ∈ rows, r.2 = RowOutcome.ok)
    (hnd : ∀ z, z < numWindows rows.length →
      ((windowArts rows z).map artName).Nodup) :
    emittedOf (generateImages true rows) = genSpecEmitted rows ∧
    (∀ p ∈ genSpecEmitted rows, ∀ e ∈ p.2, e.2 / IMAGES_PER_ZIP = p.1) ∧
    (∀ p ∈ genSpecEmitted rows,
      p.2.length = min IMAGES_PER_ZIP (rows.length - IMAGES_PER_ZIP * p.1)) ∧
    (∀ p ∈ genSpecEmitted rows, p.1 + 1 < numWindows rows.length →
      p.2.length = IMAGES_PER_ZIP) ∧
    ((genSpecEmitted rows).map Prod.fst).Nodup ∧
    (rows.length = 2500 →
      (genSpecEmitted rows).map (fun p => (p.1, p.2.length))
        = [(0, IMAGES_PER_ZIP), (1, 500)]) := by
  have hq : ∀ r ∈ rows, r.2 ≠ RowOutcome.qrFail := by
    intro r hr
    rw [hok r hr]
    decide
  have hwf : ∀ z, wcount rows z
      = min IMAGES_PER_ZIP (rows.length - IMAGES_PER_ZIP * z) :=
    wcount_all_ok rows hok
  have hsize : ∀ p ∈ genSpecEmitted rows,
      p.2.length = min IMAGES_PER_ZIP
        (rows.length - IMAGES_PER_ZIP * p.1) := by
    intro p hp
    obtain ⟨hlt, hval⟩ := mem_genSpecEmitted hp
    rw [hval, windowZip, zipOfArts_length_of_nodup _ (hnd p.1 hlt)]
    have h4 : (windowArts rows p.1).length = wcount rows p.1 := rfl
    rw [h4, hwf]
  refine ⟨?_, ?_, hsize, ?_, ?_, ?_⟩
  · rw [generateImages_characterization rows hne hq, emittedOf]
  · intro p hp e he
    obtain ⟨hlt, hval⟩ := mem_genSpecEmitted hp
    rw [hval] at he
    obtain ⟨r, hr, rfl⟩ := mem_zipOfArts _ e he
    exact (mem_windowArtsUpto hr).2.2.2
  · intro p hp hfin
    rw [hsize p hp]
    have hI : IMAGES_PER_ZIP = 2000 := rfl
    have hWd : numWindows rows.length
        = (rows.length + (IMAGES_PER_ZIP - 1)) / IMAGES_PER_ZIP := rfl
    rw [hWd, hI] at hfin
    rw [hI]
    omega
  · have hmapfst : (genSpecEmitted rows).map Prod.fst
        = ((List.range (numWindows rows.length)).filter
            (fun z => wcount rows z = IMAGES_PER_ZIP))
          ++ ((List.range (numWindows rows.length)).filter
            (fun z => 0 < wcount rows z ∧
              wcount rows z < IMAGES_PER_ZIP)) := by
      rw [genSpecEmitted, List.map_append, List.map_map, List.map_map]
      congr 1 <;> exact List.map_id _
    rw [hmapfst]
    apply List.Nodup.append
    · exact List.Nodup.filter _ (List.nodup_range _)
    · exact List.Nodup.filter _ (List.nodup_range _)
    · intro a ha hb
      have h1 := List.of_mem_filter ha
      have h2 := List.of_mem_filter hb
      simp only [decide_eq_true_eq] at h1 h2
      omega
  · intro h2500
    have hW2 : numWindows rows.length = 2 := by rw [h2500]; rfl
    have h0 : wcount rows 0 = IMAGES_PER_ZIP := by
      rw [hwf 0, h2500]
      decide
    have h1v : wcount rows 1 = 500 := by
      rw [hwf 1, h2500]
      decide
    rw [genSpecEmitted_two_windows rows hW2 h0 (by rw [h1v]; decide)
      (by rw [h1v]; decide)]
    have hz0 : (windowZip rows 0).length = IMAGES_PER_ZIP := by
      rw [windowZip, zipOfArts_length_of_nodup _
        (hnd 0 (by rw [hW2]; omega))]
      have h4 : (windowArts rows 0).length = wcount rows 0 := rfl
      rw [h4, h0]
    have hz1 : (windowZip rows 1).length = 500 := by
      rw [windowZip, zipOfArts_length_of_nodup _
        (hnd 1 (by rw [hW2]; omega))]
      have h4 : (windowArts rows 1).length = wcount rows 1 := rfl
      rw [h4, h1v]
    dsimp only [List.map_cons, List.map_nil]
    rw [hz0, hz1]

/-- Witness for the amended C4: three valid rows with distinct resolved
names run to completion and emit exactly the described shards. -/
theorem generateImages_sharding_witness :
    emittedOf (generateImages true
      [("a?id=1".toList, RowOutcome.ok), ("a?id=2".toList, RowOutcome.ok),
       ("a?id=3".toList, RowOutcome.ok)])
      = genSpecEmitted
        [("a?id=1".toList, RowOutcome.ok), ("a?id=2".toList, RowOutcome.ok),
         ("a?id=3".toList, RowOutcome.ok)] :=
  (generateImages_sharding
    [("a?id=1".toList, RowOutcome.ok), ("a?id=2".toList, RowOutcome.ok),
     ("a?id=3".toList, RowOutcome.ok)]
    (by decide) (by decide) (by decide)).1

end Uvify
